import Mathlib

/-!
Shallow embedding of `machinelearning::distances::ncd` (file
`src/distances/ncd.hpp`) and proofs about it.

Modelling conventions, stated once:

* The compressor backend (boost gzip/bzip2 filtering stream plus the byte
  counter) is external to the repository; it is modelled as an abstract
  oracle `Config.C : String → Nat` giving the compressed byte count of a
  byte sequence.  The file system is modelled as
  `Config.fs : String → Option String` (`none` = the file cannot be opened).
  `boost::thread::hardware_concurrency()` is the constant `Config.hw`.
* The numeric template parameter `T` is instantiated with `ℚ`, which models
  the real-number arithmetic of the formulas exactly.
* `std::size_t` subtraction, which the source performs inside
  `static_cast<T>(...)` in `multithread_deflate` and in the sequential
  branch of `symmetric`, wraps modulo `2 ^ 64`; it is modelled by `wsub`.
  In `unsymmetric` and `calculate` the cast happens before the subtraction,
  so there the subtraction is exact (rational) subtraction.
* Freshly constructed `ublas` vectors and matrices of a trivial element
  type do not initialise their storage.  Every such allocation therefore
  takes an explicit "initial contents" argument (`jC`, `jM`, `jS`) standing
  for whatever bytes the allocator happened to return.
* The worker threads of the parallel path are serialised lane by lane
  (lane 0 first, then lane 1, ...); each lane processes its wavefront
  pairs in multimap insertion order, exactly as the `lower_bound ..
  upper_bound` iteration does.
* `unsymmetric` is additionally instrumented with the list of `deflate`
  requests it issues (`Ev`), which is needed to state the memoization
  property; the instrumentation changes no computed value.
-/

namespace NCD

/-- Word modulus of `std::size_t` on the 64-bit platforms the code targets. -/
def W : Nat := 2 ^ 64

/-- Wrap-around `std::size_t` subtraction `a - b` (modulo `2 ^ 64`). -/
def wsub (a b : Nat) : Nat := (a % W + (W - b % W)) % W

/-- Pointwise update of a `Nat`-indexed map, used to model writes into a
`ublas::vector`. -/
def upd {α : Type} (f : Nat → α) (k : Nat) (v : α) : Nat → α :=
  fun x => if x = k then v else f x

/-- Pointwise update of a doubly indexed map, used to model writes into a
`ublas` matrix or into the stored (upper) triangle of a symmetric matrix. -/
def upd2 {α : Type} (f : Nat → Nat → α) (i j : Nat) (v : α) : Nat → Nat → α :=
  fun a b => if a = i ∧ b = j then v else f a b

/-- Exceptions thrown by the class.  All three are `exception::parameter`
in C++; the constructors record the three distinct message strings, which
are the only way the failure causes are distinguished. -/
inductive Err : Type where
  /-- message `string size must be greater than zero` (empty input string). -/
  | emptyString : Err
  /-- message `file can not be opened` (file mode, unreadable path). -/
  | fileNotOpen : Err
  /-- message `vector size must be greater than zero` (empty batch). -/
  | emptyVector : Err
deriving DecidableEq, Repr

/-- Exception sequencing: run `r`; a thrown exception propagates, a normal
result is passed on.  This is how every statement sequence containing a
throwing call is modelled. -/
def eseq {α β : Type} (r : Except Err α) (f : α → Except Err β) : Except Err β :=
  match r with
  | Except.error e => Except.error e
  | Except.ok a => f a

theorem eseq_ok {α β : Type} (a : α) (f : α → Except Err β) :
    eseq (Except.ok a) f = f a := rfl

theorem eseq_error {α β : Type} (e : Err) (f : α → Except Err β) :
    eseq (Except.error e) f = Except.error e := rfl

/-- Static environment of a run: the compressed-size oracle, the file
system, and the reported hardware concurrency. -/
structure Config : Type where
  C : String → Nat
  fs : String → Option String
  hw : Nat

/-- Reading a file through `std::istream_iterator<char>` uses formatted
extraction, which skips whitespace; the bytes fed to the compressor are the
file's non-whitespace characters. -/
def readChars (s : String) : String :=
  ⟨s.data.filter (fun c => !c.isWhitespace)⟩

/-- Model of `ncd::deflate(p_str1, p_str2)` (lines 378-431): checks that
`p_str1` is non-empty, then feeds either the buffers `p_str1 + p_str2` or
the contents of the named files to the compressor and returns the counted
compressed size.  An empty `p_str2` means "no second item". -/
def deflate (cfg : Config) (isfile : Bool) (s1 s2 : String) : Except Err Nat :=
  if s1 = "" then Except.error Err.emptyString
  else if isfile then
    match cfg.fs s1 with
    | none => Except.error Err.fileNotOpen
    | some c1 =>
      if s2 = "" then Except.ok (cfg.C (readChars c1))
      else
        match cfg.fs s2 with
        | none => Except.error Err.fileNotOpen
        | some c2 => Except.ok (cfg.C (readChars c1 ++ readChars c2))
  else Except.ok (cfg.C (s1 ++ s2))

/-- The one-argument overload `deflate(p_str1)` (default `p_str2 = ""`). -/
def deflate1 (cfg : Config) (isfile : Bool) (s1 : String) : Except Err Nat :=
  deflate cfg isfile s1 ""

/-- Model of `ncd::calculate` (lines 250-258): `m_isfile` is set to the
argument, the three compressed sizes are computed, and the unclamped NCD
value is returned.  The cast happens before the subtraction, so the
subtraction is exact. -/
def calculate (cfg : Config) (a b : String) (isfile : Bool) : Except Err ℚ :=
  eseq (deflate1 cfg isfile a) (fun lfirst =>
    eseq (deflate1 cfg isfile b) (fun lsecond =>
      eseq (deflate cfg isfile a b) (fun lab =>
        Except.ok (((lab : ℚ) - ((min lfirst lsecond : Nat) : ℚ)) /
          ((max lfirst lsecond : Nat) : ℚ)))))

/-- Model of the double loop of `ncd::getWavefrontIndex` (lines 158-161):
outer loop `i = p_size-1 .. 1` (here `i = N-1-k` for `k = 0 .. N-2`),
inner loop `j` while `i + j < N`, emitting the pair `(j, i+j)`. -/
def wavefrontPairs (N : Nat) : List (Nat × Nat) :=
  (List.range (N - 1)).flatMap (fun k =>
    (List.range (k + 1)).map (fun j => (j, (N - 1 - k) + j)))

/-- The running counter `n++ % p_threads` of `getWavefrontIndex`: tag each
successively emitted pair with its worker lane. -/
def wfInsert (T : Nat) : Nat → List (Nat × Nat) → List (Nat × Nat × Nat)
  | _, [] => []
  | n, p :: ps => (n % T, p.1, p.2) :: wfInsert T (n + 1) ps

/-- The contents of the multimap `m_wavefront` after `getWavefrontIndex
(N, T)`, as (lane, i, j) triples in insertion order. -/
def wavefrontEntries (N T : Nat) : List (Nat × Nat × Nat) :=
  wfInsert T 0 (wavefrontPairs N)

/-- The pairs a worker lane `t` iterates over: the multimap range
`lower_bound(t) .. upper_bound(t)`, i.e. the entries with key `t` in
insertion order. -/
def lanePairs (N T t : Nat) : List (Nat × Nat) :=
  ((wavefrontEntries N T).filter (fun e => e.1 = t)).map (fun e => e.2)

/-- Serialisation of the `T` worker lanes of `symmetric`: lane 0's pairs,
then lane 1's, and so on.  Each computed cell value depends only on its
pair (proved below via the stable-cache argument), so this serialisation
produces the matrix any thread interleaving produces. -/
def laneSeq (N T : Nat) : List (Nat × Nat) :=
  (List.range T).flatMap (fun t => lanePairs N T t)

/-- Instrumentation event: `std k` records the call `deflate(p_strvec[k])`
that fills cache slot `k`; `cat i j` records the concatenation call
`deflate(p_strvec[i], p_strvec[j])`. -/
inductive Ev : Type where
  | std (k : Nat) : Ev
  | cat (i j : Nat) : Ev
deriving DecidableEq, Repr

/-- Working state of the `unsymmetric` loops: the local cache `l_cache`,
the local matrix `l_distances`, and the instrumentation list of issued
`deflate` requests (in call order). -/
structure UState : Type where
  cache : Nat → Nat
  mat : Nat → Nat → ℚ
  tr : List Ev

/-- Inner loop of `ncd::unsymmetric` (lines 290-303) for a fixed row `i`,
over the remaining column indices `js`.  At row 0 the standalone size of
column `j` is memoized first; then both concatenation directions are
compressed, mapped through the NCD formula (exact subtraction: the cast
precedes it) and clamped from above by 1. -/
def uInner (cfg : Config) (isfile : Bool) (src : Nat → String) (i : Nat) :
    List Nat → UState → Except Err UState
  | [], st => Except.ok st
  | j :: js, st =>
    eseq
      (if i = 0 then
        eseq (deflate1 cfg isfile (src j)) (fun v =>
          Except.ok ⟨upd st.cache j v, st.mat, st.tr ++ [Ev.std j]⟩)
      else Except.ok st)
      (fun st1 =>
        let lmin : Nat := min (st1.cache i) (st1.cache j)
        let lmax : Nat := max (st1.cache i) (st1.cache j)
        eseq (deflate cfg isfile (src i) (src j)) (fun ab =>
          let vij : ℚ := min (((ab : ℚ) - (lmin : ℚ)) / (lmax : ℚ)) 1
          eseq (deflate cfg isfile (src j) (src i)) (fun ba =>
            let vji : ℚ := min (((ba : ℚ) - (lmin : ℚ)) / (lmax : ℚ)) 1
            uInner cfg isfile src i js
              ⟨st1.cache, upd2 (upd2 st1.mat i j vij) j i vji,
                st1.tr ++ [Ev.cat i j, Ev.cat j i]⟩)))

/-- Outer loop of `ncd::unsymmetric` (lines 281-305) over the row indices
`is`: at row 0 the row's own standalone size is memoized, the diagonal
entry is set to 0, and the inner loop runs over the columns `i+1 .. n-1`. -/
def uOuter (cfg : Config) (isfile : Bool) (src : Nat → String) (n : Nat) :
    List Nat → UState → Except Err UState
  | [], st => Except.ok st
  | i :: is, st =>
    eseq
      (if i = 0 then
        eseq (deflate1 cfg isfile (src i)) (fun v =>
          Except.ok ⟨upd st.cache i v, st.mat, st.tr ++ [Ev.std i]⟩)
      else Except.ok st)
      (fun st1 =>
        eseq (uInner cfg isfile src i (List.range' (i + 1) (n - (i + 1)))
            ⟨st1.cache, upd2 st1.mat i i 0, st1.tr⟩)
          (fun st2 => uOuter cfg isfile src n is st2))

/-- Working state of the `symmetric` paths: the member cache `m_cache` and
the stored (upper-triangle) cells of `m_symmetric`.  All writes the source
performs into `m_symmetric` use indices `i ≤ j`, i.e. they address the
stored triangle directly. -/
structure SState : Type where
  cache : Nat → Nat
  sto : Nat → Nat → ℚ

/-- Inner loop of the sequential fallback branch of `ncd::symmetric`
(lines 358-365) for a fixed row `i`: at row 0 the standalone size of
column `j` is memoized first; one concatenation order is compressed and
the clamped NCD value (with the `std::size_t` subtraction happening inside
the cast, hence `wsub`) is written into cell `(i, j)`. -/
def sInner (cfg : Config) (isfile : Bool) (src : Nat → String) (i : Nat) :
    List Nat → SState → Except Err SState
  | [], st => Except.ok st
  | j :: js, st =>
    eseq
      (if i = 0 then
        eseq (deflate1 cfg isfile (src j)) (fun v =>
          Except.ok ⟨upd st.cache j v, st.sto⟩)
      else Except.ok st)
      (fun st1 =>
        eseq (deflate cfg isfile (src i) (src j)) (fun ab =>
          let v : ℚ := min 1
            ((wsub ab (min (st1.cache i) (st1.cache j)) : ℚ) /
              ((max (st1.cache i) (st1.cache j) : Nat) : ℚ))
          sInner cfg isfile src i js ⟨st1.cache, upd2 st1.sto i j v⟩))

/-- Outer loop of the sequential fallback branch of `ncd::symmetric`
(lines 351-367) over the row indices `is`. -/
def sOuter (cfg : Config) (isfile : Bool) (src : Nat → String) (n : Nat) :
    List Nat → SState → Except Err SState
  | [], st => Except.ok st
  | i :: is, st =>
    eseq
      (if i = 0 then
        eseq (deflate1 cfg isfile (src i)) (fun v =>
          Except.ok ⟨upd st.cache i v, st.sto⟩)
      else Except.ok st)
      (fun st1 =>
        eseq (sInner cfg isfile src i (List.range' (i + 1) (n - (i + 1)))
            ⟨st1.cache, upd2 st1.sto i i 0⟩)
          (fun st2 => sOuter cfg isfile src n is st2))

/-- Cache lookup-or-fill of `ncd::multithread_deflate` (lines 177-181):
if the cache slot reads 0 it is filled with the standalone compressed
size, otherwise whatever the slot holds is kept. -/
def touch (cfg : Config) (isfile : Bool) (src : Nat → String)
    (cache : Nat → Nat) (k : Nat) : Except Err (Nat → Nat) :=
  if cache k = 0 then
    eseq (deflate1 cfg isfile (src k)) (fun v => Except.ok (upd cache k v))
  else Except.ok cache

/-- Pair loop of the symmetric branch of `ncd::multithread_deflate`
(lines 173-188) over the (serialised) wavefront pairs: both cache slots
are looked up or filled, then the pair's concatenation is compressed once
and the clamped NCD value (`std::size_t` subtraction inside the cast,
hence `wsub`) is written into cell `(i, j)`. -/
def symPar (cfg : Config) (isfile : Bool) (src : Nat → String) :
    List (Nat × Nat) → SState → Except Err SState
  | [], st => Except.ok st
  | p :: ps, st =>
    eseq (touch cfg isfile src st.cache p.1) (fun c1 =>
      eseq (touch cfg isfile src c1 p.2) (fun c2 =>
        eseq (deflate cfg isfile (src p.1) (src p.2)) (fun ab =>
          let v : ℚ := min 1
            ((wsub ab (min (c2 p.1) (c2 p.2)) : ℚ) /
              ((max (c2 p.1) (c2 p.2) : Nat) : ℚ))
          symPar cfg isfile src ps ⟨c2, upd2 st.sto p.1 p.2 v⟩)))

/-- Reading entry `(a, b)` of a `ublas::symmetric_matrix<T, upper>`: both
index orders resolve to the stored upper-triangle cell. -/
def symRead (sto : Nat → Nat → ℚ) : Nat → Nat → ℚ :=
  fun a b => sto (min a b) (max a b)

/-- Engine member state (lines 99-104): the two result matrices, the
wavefront multimap, the size cache, the item snapshot and the mode flag.
The default constructor makes all containers empty; the empty containers
are represented by all-zero functions and empty lists. -/
structure EngineState : Type where
  msymmetric : Nat → Nat → ℚ
  munsymmetric : Nat → Nat → ℚ
  mwavefront : List (Nat × Nat × Nat)
  mcache : Nat → Nat
  msources : List String
  misfile : Bool

/-- Engine state after `ncd()` (lines 118-128). -/
def initState : EngineState :=
  ⟨fun _ _ => 0, fun _ _ => 0, [], fun _ => 0, [], false⟩

/-- Model of `ncd::unsymmetric` (lines 268-308) acting on the engine
state: after the emptiness check the only member it writes is `m_isfile`
(line 275); cache and matrix are call-local.  The result is the local
matrix together with the instrumentation trace. -/
def unsymmetricS (cfg : Config) (st : EngineState) (items : List String)
    (isfile : Bool) (jC : Nat → Nat) (jM : Nat → Nat → ℚ) :
    Except Err ((Nat → Nat → ℚ) × List Ev) × EngineState :=
  if items.length = 0 then (Except.error Err.emptyVector, st)
  else
    let st' : EngineState :=
      ⟨st.msymmetric, st.munsymmetric, st.mwavefront, st.mcache,
        st.msources, isfile⟩
    let src : Nat → String := fun k => items.getD k ""
    match uOuter cfg isfile src items.length (List.range items.length)
        ⟨jC, jM, []⟩ with
    | Except.ok fin => (Except.ok (fin.mat, fin.tr), st')
    | Except.error e => (Except.error e, st')

/-- Model of `ncd::symmetric` (lines 317-370) acting on the engine state.
After the emptiness check the members `m_sources`, `m_isfile`, `m_cache`
(fresh, uninitialised contents `jC`), `m_symmetric` (fresh, uninitialised
stored cells `jS`) and `m_unsymmetric` (empty) are assigned; then either
the parallel wavefront branch (`hw > 1`) or the sequential fallback runs.
On an error thrown inside a loop the partially written cache/matrix cells
are not tracked; the fields assigned before the loop are exact. -/
def symmetricS (cfg : Config) (st : EngineState) (items : List String)
    (isfile : Bool) (jC : Nat → Nat) (jS : Nat → Nat → ℚ) :
    Except Err (Nat → Nat → ℚ) × EngineState :=
  if items.length = 0 then (Except.error Err.emptyVector, st)
  else
    let n : Nat := items.length
    let src : Nat → String := fun k => items.getD k ""
    let base : EngineState := ⟨jS, fun _ _ => 0, st.mwavefront, jC, items, isfile⟩
    if cfg.hw > 1 then
      match deflate1 cfg isfile (src 0) with
      | Except.error e => (Except.error e, base)
      | Except.ok v0 =>
        match deflate1 cfg isfile (src (n - 1)) with
        | Except.error e =>
          (Except.error e, ⟨jS, fun _ _ => 0, st.mwavefront, upd jC 0 v0, items, isfile⟩)
        | Except.ok v1 =>
          let cache0 : Nat → Nat := upd (upd jC 0 v0) (n - 1) v1
          let wf : List (Nat × Nat × Nat) := wavefrontEntries n cfg.hw
          match symPar cfg isfile src (laneSeq n cfg.hw) ⟨cache0, jS⟩ with
          | Except.ok fin =>
            (Except.ok (symRead fin.sto), ⟨fin.sto, fun _ _ => 0, wf, fin.cache, items, isfile⟩)
          | Except.error e =>
            (Except.error e, ⟨jS, fun _ _ => 0, wf, cache0, items, isfile⟩)
    else
      match sOuter cfg isfile src n (List.range n) ⟨jC, jS⟩ with
      | Except.ok fin =>
        (Except.ok (symRead fin.sto),
          ⟨fin.sto, fun _ _ => 0, st.mwavefront, fin.cache, items, isfile⟩)
      | Except.error e => (Except.error e, base)

/-- The matrix `ncd::unsymmetric` returns (state-free view). -/
def unsymmetric (cfg : Config) (items : List String) (isfile : Bool)
    (jC : Nat → Nat) (jM : Nat → Nat → ℚ) :
    Except Err ((Nat → Nat → ℚ) × List Ev) :=
  (unsymmetricS cfg initState items isfile jC jM).1

/-- The matrix `ncd::symmetric` returns (state-free view). -/
def symmetric (cfg : Config) (items : List String) (isfile : Bool)
    (jC : Nat → Nat) (jS : Nat → Nat → ℚ) : Except Err (Nat → Nat → ℚ) :=
  (symmetricS cfg initState items isfile jC jS).1

/-- Total accessor: the matrix of an `unsymmetric` result (`0` matrix on
error). -/
def matOf (r : Except Err ((Nat → Nat → ℚ) × List Ev)) : Nat → Nat → ℚ :=
  match r with
  | Except.ok p => p.1
  | Except.error _ => fun _ _ => 0

/-- Total accessor: the trace of an `unsymmetric` result (`[]` on error). -/
def traceOf (r : Except Err ((Nat → Nat → ℚ) × List Ev)) : List Ev :=
  match r with
  | Except.ok p => p.2
  | Except.error _ => []

/-- Total accessor: the matrix of a `symmetric` result (`0` matrix on
error). -/
def symOf (r : Except Err (Nat → Nat → ℚ)) : Nat → Nat → ℚ :=
  match r with
  | Except.ok m => m
  | Except.error _ => fun _ _ => 0

/-- Whether an `Except` result is a success. -/
def okOf {α : Type} (r : Except Err α) : Bool :=
  match r with
  | Except.ok _ => true
  | Except.error _ => false

/-! Derived closed forms.  These are proved, not assumed, to be the values
the loops compute; the loop definitions above are the translation of the
source. -/

/-- Standalone compressed size of batch item `k`. -/
def sz (cfg : Config) (src : Nat → String) (k : Nat) : Nat := cfg.C (src k)

/-- Value `unsymmetric` stores at an off-diagonal cell `(a, b)`:
the exact NCD ratio for concatenation `a`-then-`b`, clamped from above
by 1 (and by nothing from below). -/
def uE (cfg : Config) (src : Nat → String) (a b : Nat) : ℚ :=
  min (((cfg.C (src a ++ src b) : ℚ) -
      ((min (sz cfg src a) (sz cfg src b) : Nat) : ℚ)) /
    ((max (sz cfg src a) (sz cfg src b) : Nat) : ℚ)) 1

/-- Value the sequential branch of `symmetric` stores at an upper cell
`(a, b)`: the NCD ratio with wrap-around numerator, clamped from above
by 1. -/
def sE (cfg : Config) (src : Nat → String) (a b : Nat) : ℚ :=
  min 1 ((wsub (cfg.C (src a ++ src b)) (min (sz cfg src a) (sz cfg src b)) : ℚ) /
    ((max (sz cfg src a) (sz cfg src b) : Nat) : ℚ))

/-- The value cache slot `k` delivers to every formula of the parallel
branch: slots `0` and `n-1` are filled eagerly; any other slot keeps its
uninitialised contents `jC k` unless that happens to be the sentinel 0,
in which case the slot is filled on first touch. -/
def stableC (cfg : Config) (src : Nat → String) (n : Nat) (jC : Nat → Nat)
    (k : Nat) : Nat :=
  if k = 0 ∨ k = n - 1 then sz cfg src k
  else if jC k = 0 then sz cfg src k else jC k

/-- Value the parallel branch of `symmetric` stores at a wavefront cell
`(a, b)`: as `sE` but with the cache values actually observed. -/
def pE (cfg : Config) (src : Nat → String) (n : Nat) (jC : Nat → Nat)
    (a b : Nat) : ℚ :=
  min 1 ((wsub (cfg.C (src a ++ src b))
      (min (stableC cfg src n jC a) (stableC cfg src n jC b)) : ℚ) /
    ((max (stableC cfg src n jC a) (stableC cfg src n jC b) : Nat) : ℚ))

theorem upd_self {α : Type} (f : Nat → α) (k : Nat) (v : α) : upd f k v k = v := by
  simp [upd]

theorem upd_ne {α : Type} (f : Nat → α) (k : Nat) (v : α) (x : Nat) (h : x ≠ k) :
    upd f k v x = f x := by
  simp [upd, h]

theorem deflate_buf (cfg : Config) (s1 s2 : String) (h : ¬s1 = "") :
    deflate cfg false s1 s2 = Except.ok (cfg.C (s1 ++ s2)) := by
  simp [deflate, h]

theorem deflate1_buf (cfg : Config) (s : String) (h : ¬s = "") :
    deflate1 cfg false s = Except.ok (cfg.C s) := by
  simp [deflate1, deflate, h]


theorem uInner0_eq (cfg : Config) (src : Nat → String) (js : List Nat) (st : UState)
    (h0 : st.cache 0 = sz cfg src 0)
    (hs0 : ¬src 0 = "") (hsj : ∀ j ∈ js, ¬src j = "")
    (hj : ∀ j ∈ js, 0 < j) :
    uInner cfg false src 0 js st = Except.ok
      ⟨fun k => if k ∈ js then sz cfg src k else st.cache k,
       fun a b =>
         if a = 0 ∧ b ∈ js then uE cfg src 0 b
         else if b = 0 ∧ a ∈ js then uE cfg src a 0
         else st.mat a b,
       st.tr ++ js.flatMap (fun j => [Ev.std j, Ev.cat 0 j, Ev.cat j 0])⟩ := by
  induction js generalizing st with
  | nil =>
    cases st with
    | mk c m t => simp [uInner]
  | cons j js ih =>
    have hj0 : 0 < j := hj j (by simp)
    have hjne : ¬(j = 0) := by omega
    have hjs0 : ¬(0 ∈ js) := fun h => by have := hj 0 (by simp [h]); omega
    have hsjj : ¬src j = "" := hsj j (by simp)
    cases st with
    | mk c m t =>
      rw [uInner]
      simp only [if_pos rfl, if_true, deflate1_buf cfg (src j) hsjj,
        deflate_buf cfg (src 0) (src j) hs0, deflate_buf cfg (src j) (src 0) hsjj,
        eseq_ok]
      have hcj : upd c j (cfg.C (src j)) j = sz cfg src j := by
        simp [upd, sz]
      have hc0 : upd c j (cfg.C (src j)) 0 = sz cfg src 0 := by
        rw [upd_ne _ _ _ _ (by omega)]; exact h0
      rw [ih _ (by simpa using hc0) (fun x hx => hsj x (by simp [hx]))
        (fun x hx => hj x (by simp [hx]))]
      rw [Except.ok.injEq, UState.mk.injEq]
      refine ⟨?_, ?_, ?_⟩
      · funext k
        by_cases hk : k ∈ js
        · simp [hk]
        · by_cases hkj : k = j
          · subst hkj
            simp [hk, upd, sz]
          · simp [hk, hkj, upd_ne _ _ _ _ hkj]
      · funext a b
        simp only [hcj, hc0]
        by_cases ha0 : a = 0
        · subst ha0
          by_cases hb : b ∈ js
          · simp [hb]
          · by_cases hbj : b = j
            · subst hbj
              simp [hb, hjs0, hjne, upd2, uE, sz]
            · by_cases hb0 : b = 0
              · subst hb0
                simp [hb, hjs0, hjne, hbj, upd2]
              · simp [hb, hbj, hb0, hjs0, hjne, upd2]
        · by_cases hb0 : b = 0
          · subst hb0
            by_cases ha : a ∈ js
            · simp [ha, ha0]
            · by_cases haj : a = j
              · subst haj
                simp [ha, ha0, hjne, upd2, uE, sz, min_comm, max_comm]
              · simp [ha, ha0, haj, hjne, upd2]
          · simp [ha0, hb0, upd2]
      · simp


theorem uInnerPos_eq (cfg : Config) (src : Nat → String) (i : Nat) (js : List Nat)
    (c : Nat → Nat) (m : Nat → Nat → ℚ) (t : List Ev) (hi : 0 < i) (hij : i ∉ js)
    (hci : c i = sz cfg src i) (hcj : ∀ j ∈ js, c j = sz cfg src j)
    (hsi : ¬src i = "") (hsj : ∀ j ∈ js, ¬src j = "") :
    uInner cfg false src i js ⟨c, m, t⟩ = Except.ok
      ⟨c,
       fun a b =>
         if a = i ∧ b ∈ js then uE cfg src i b
         else if b = i ∧ a ∈ js then uE cfg src a i
         else m a b,
       t ++ js.flatMap (fun j => [Ev.cat i j, Ev.cat j i])⟩ := by
  induction js generalizing m t with
  | nil => simp [uInner]
  | cons j js ih =>
    have hine : ¬(i = 0) := by omega
    have hji : ¬(j = i) := fun h => hij (by simp [h])
    have hsjj : ¬src j = "" := hsj j (by simp)
    have hcjj : c j = sz cfg src j := hcj j (by simp)
    rw [uInner]
    simp only [if_neg hine, deflate_buf cfg (src i) (src j) hsi,
      deflate_buf cfg (src j) (src i) hsjj, eseq_ok]
    rw [ih _ _ (fun h => hij (by simp [h])) (fun x hx => hcj x (by simp [hx]))
      (fun x hx => hsj x (by simp [hx]))]
    rw [Except.ok.injEq, UState.mk.injEq]
    refine ⟨rfl, ?_, by simp⟩
    funext a b
    simp only [hci, hcjj]
    by_cases hai : a = i
    · subst hai
      by_cases hb : b ∈ js
      · simp [hb]
      · by_cases hbj : b = j
        · subst hbj
          simp [hb, hij, hji, upd2, uE, sz]
        · by_cases hbi : b = a
          · subst hbi
            simp [hb, hbj, hij, hji, upd2]
          · simp [hb, hbj, hbi, hij, hji, upd2]
    · by_cases hbi : b = i
      · subst hbi
        by_cases ha : a ∈ js
        · simp [ha, hai]
        · by_cases haj : a = j
          · subst haj
            simp [ha, hai, hji, upd2, uE, sz, min_comm, max_comm]
          · simp [ha, hai, haj, hji, upd2]
      · simp [hai, hbi, hji, upd2]

set_option maxHeartbeats 1000000 in
theorem uOuterPos_eq (cfg : Config) (src : Nat → String) (n : Nat) (is : List Nat)
    (c : Nat → Nat) (m : Nat → Nat → ℚ) (t : List Ev)
    (his : ∀ i ∈ is, 0 < i ∧ i < n)
    (hc : ∀ k, k < n → c k = sz cfg src k)
    (hs : ∀ k, k < n → ¬src k = "") :
    uOuter cfg false src n is ⟨c, m, t⟩ = Except.ok
      ⟨c,
       fun a b =>
         if (a ∈ is ∧ a < b ∧ b < n) ∨ (b ∈ is ∧ b < a ∧ a < n) then uE cfg src a b
         else if a = b ∧ a ∈ is then 0
         else m a b,
       t ++ is.flatMap (fun i =>
         (List.range' (i + 1) (n - (i + 1))).flatMap (fun j => [Ev.cat i j, Ev.cat j i]))⟩ := by
  induction is generalizing m t with
  | nil => simp [uOuter]
  | cons i is ih =>
    have hi0 : 0 < i := (his i (by simp)).1
    have hin : i < n := (his i (by simp)).2
    have hine : ¬(i = 0) := by omega
    rw [uOuter]
    simp only [if_neg hine, eseq_ok]
    rw [uInnerPos_eq cfg src i _ c (upd2 m i i 0) t hi0
      (by intro h; rw [List.mem_range'_1] at h; omega)
      (hc i hin)
      (by intro x hx; rw [List.mem_range'_1] at hx; exact hc x (by omega))
      (hs i hin)
      (by intro x hx; rw [List.mem_range'_1] at hx; exact hs x (by omega)),
      eseq_ok]
    rw [ih _ _ (fun x hx => his x (by simp [hx]))]
    rw [Except.ok.injEq, UState.mk.injEq]
    refine ⟨rfl, ?_, by simp⟩
    funext a b
    have hnn : i + 1 + (n - (i + 1)) = n := by omega
    simp only [List.mem_cons, List.mem_range'_1, hnn, upd2]
    by_cases hais : a ∈ is <;> by_cases hbis : b ∈ is <;>
      by_cases hai : a = i <;> by_cases hbi : b = i <;> subst_vars <;>
      simp only [hais, hbis, iff_true, iff_false, true_and, and_true, false_and,
        and_false, or_true, true_or, false_or, or_false, if_true, if_false] <;>
      split_ifs <;> first | rfl | (exfalso; omega)



/-- The full instrumentation trace `unsymmetric` produces on an `n`-item
batch: row 0 memoizes every standalone size and handles its pairs; the
remaining rows only compress pair concatenations. -/
def uTrace (n : Nat) : List Ev :=
  [Ev.std 0] ++
    (List.range' 1 (n - 1)).flatMap (fun j => [Ev.std j, Ev.cat 0 j, Ev.cat j 0]) ++
    (List.range' 1 (n - 1)).flatMap (fun i =>
      (List.range' (i + 1) (n - (i + 1))).flatMap (fun j => [Ev.cat i j, Ev.cat j i]))

set_option maxHeartbeats 1000000 in
theorem uOuter_eq (cfg : Config) (src : Nat → String) (n : Nat) (hn : 0 < n)
    (jC : Nat → Nat) (jM : Nat → Nat → ℚ)
    (hs : ∀ k, k < n → ¬src k = "") :
    uOuter cfg false src n (List.range n) ⟨jC, jM, []⟩ = Except.ok
      ⟨fun k => if k < n then sz cfg src k else jC k,
       fun a b => if a < n ∧ b < n then (if a = b then 0 else uE cfg src a b)
         else jM a b,
       uTrace n⟩ := by
  have hrange : List.range n = 0 :: List.range' 1 (n - 1) := by
    rw [List.range_eq_range']
    cases n with
    | zero => omega
    | succ m => rw [List.range'_succ]; simp
  rw [hrange, uOuter]
  simp only [if_pos rfl, if_true, deflate1_buf cfg (src 0) (hs 0 hn), eseq_ok]
  rw [uInner0_eq cfg src _ _ (by simp [upd, sz])
    (hs 0 hn)
    (by intro x hx; rw [List.mem_range'_1] at hx; exact hs x (by omega))
    (by intro x hx; rw [List.mem_range'_1] at hx; omega)]
  rw [eseq_ok]
  rw [uOuterPos_eq cfg src n _ _ _ _
    (by intro x hx; rw [List.mem_range'_1] at hx; omega)
    (by
      intro k hk
      by_cases hk0 : k = 0
      · subst hk0
        simp [List.mem_range'_1, upd, sz]
      · simp only [List.mem_range'_1]
        have : 1 ≤ k ∧ k < 1 + (n - 1) := by omega
        simp [this])
    hs]
  rw [Except.ok.injEq, UState.mk.injEq]
  have hnn0 : 1 + (n - 1) = n := by omega
  refine ⟨?_, ?_, by simp [uTrace]⟩
  · funext k
    simp only [List.mem_range'_1, hnn0]
    by_cases hk : k < n
    · by_cases hk0 : k = 0
      · subst hk0
        simp [upd, sz, hk]
      · have : 1 ≤ k ∧ k < n := by omega
        simp [this, hk]
    · have : ¬(1 ≤ k ∧ k < n) := by omega
      simp [this, hk, upd_ne _ _ _ _ (by omega : k ≠ 0)]
  · funext a b
    simp only [List.mem_range'_1, hnn0, upd2]
    by_cases ha0 : a = 0 <;> by_cases hb0 : b = 0 <;> subst_vars <;>
      split_ifs <;> first | rfl | (exfalso; omega)

theorem sInner0_eq (cfg : Config) (src : Nat → String) (js : List Nat)
    (c : Nat → Nat) (s : Nat → Nat → ℚ)
    (h0 : c 0 = sz cfg src 0) (hs0 : ¬src 0 = "") (hsj : ∀ j ∈ js, ¬src j = "")
    (hj : ∀ j ∈ js, 0 < j) :
    sInner cfg false src 0 js ⟨c, s⟩ = Except.ok
      ⟨fun k => if k ∈ js then sz cfg src k else c k,
       fun a b => if a = 0 ∧ b ∈ js then sE cfg src 0 b else s a b⟩ := by
  induction js generalizing c s with
  | nil => simp [sInner]
  | cons j js ih =>
    have hj0 : 0 < j := hj j (by simp)
    have hjne : ¬(j = 0) := by omega
    have hjs0 : ¬(0 ∈ js) := fun h => by have := hj 0 (by simp [h]); omega
    have hsjj : ¬src j = "" := hsj j (by simp)
    rw [sInner]
    simp only [if_pos rfl, if_true, deflate1_buf cfg (src j) hsjj,
      deflate_buf cfg (src 0) (src j) hs0, eseq_ok]
    rw [ih _ _ (by rw [upd_ne _ _ _ _ (by omega)]; exact h0)
      (fun x hx => hsj x (by simp [hx])) (fun x hx => hj x (by simp [hx]))]
    rw [Except.ok.injEq, SState.mk.injEq]
    constructor
    · funext k
      by_cases hk : k ∈ js
      · simp [hk]
      · by_cases hkj : k = j
        · subst hkj
          simp [hk, upd, sz]
        · simp [hk, hkj, upd_ne _ _ _ _ hkj]
    · funext a b
      have hcj : upd c j (cfg.C (src j)) j = sz cfg src j := by simp [upd, sz]
      have hc0 : upd c j (cfg.C (src j)) 0 = sz cfg src 0 := by
        rw [upd_ne _ _ _ _ (by omega)]; exact h0
      simp only [hcj, hc0]
      by_cases ha0 : a = 0
      · subst ha0
        by_cases hb : b ∈ js
        · simp [hb]
        · by_cases hbj : b = j
          · subst hbj
            simp [hb, upd2, sE, sz]
          · simp [hb, hbj, upd2, hjne]
      · simp [ha0, upd2]

theorem sInnerPos_eq (cfg : Config) (src : Nat → String) (i : Nat) (js : List Nat)
    (c : Nat → Nat) (s : Nat → Nat → ℚ) (hi : 0 < i)
    (hci : c i = sz cfg src i) (hcj : ∀ j ∈ js, c j = sz cfg src j)
    (hsi : ¬src i = "") (hsj : ∀ j ∈ js, ¬src j = "") :
    sInner cfg false src i js ⟨c, s⟩ = Except.ok
      ⟨c, fun a b => if a = i ∧ b ∈ js then sE cfg src i b else s a b⟩ := by
  induction js generalizing s with
  | nil => simp [sInner]
  | cons j js ih =>
    have hine : ¬(i = 0) := by omega
    have hsjj : ¬src j = "" := hsj j (by simp)
    have hcjj : c j = sz cfg src j := hcj j (by simp)
    rw [sInner]
    simp only [if_neg hine, deflate_buf cfg (src i) (src j) hsi, eseq_ok]
    rw [ih _ (fun x hx => hcj x (by simp [hx])) (fun x hx => hsj x (by simp [hx]))]
    rw [Except.ok.injEq, SState.mk.injEq]
    refine ⟨rfl, ?_⟩
    funext a b
    simp only [hci, hcjj]
    by_cases hai : a = i
    · subst hai
      by_cases hb : b ∈ js
      · simp [hb]
      · by_cases hbj : b = j
        · subst hbj
          simp [hb, upd2, sE, sz]
        · simp [hb, hbj, upd2]
    · simp [hai, upd2]

set_option maxHeartbeats 1000000 in
theorem sOuterPos_eq (cfg : Config) (src : Nat → String) (n : Nat) (is : List Nat)
    (c : Nat → Nat) (s : Nat → Nat → ℚ)
    (his : ∀ i ∈ is, 0 < i ∧ i < n)
    (hc : ∀ k, k < n → c k = sz cfg src k)
    (hs : ∀ k, k < n → ¬src k = "") :
    sOuter cfg false src n is ⟨c, s⟩ = Except.ok
      ⟨c, fun a b =>
        if a ∈ is ∧ a < b ∧ b < n then sE cfg src a b
        else if a = b ∧ a ∈ is then 0
        else s a b⟩ := by
  induction is generalizing s with
  | nil => simp [sOuter]
  | cons i is ih =>
    have hi0 : 0 < i := (his i (by simp)).1
    have hin : i < n := (his i (by simp)).2
    have hine : ¬(i = 0) := by omega
    rw [sOuter]
    simp only [if_neg hine, eseq_ok]
    rw [sInnerPos_eq cfg src i _ c (upd2 s i i 0) hi0
      (hc i hin)
      (by intro x hx; rw [List.mem_range'_1] at hx; exact hc x (by omega))
      (hs i hin)
      (by intro x hx; rw [List.mem_range'_1] at hx; exact hs x (by omega)),
      eseq_ok]
    rw [ih _ (fun x hx => his x (by simp [hx]))]
    rw [Except.ok.injEq, SState.mk.injEq]
    refine ⟨rfl, ?_⟩
    funext a b
    have hnn : i + 1 + (n - (i + 1)) = n := by omega
    simp only [List.mem_cons, List.mem_range'_1, hnn, upd2]
    by_cases hais : a ∈ is <;> by_cases hbis : b ∈ is <;>
      by_cases hai : a = i <;> by_cases hbi : b = i <;> subst_vars <;>
      simp only [hais, hbis, iff_true, iff_false, true_and, and_true, false_and,
        and_false, or_true, true_or, false_or, or_false, if_true, if_false] <;>
      split_ifs <;> first | rfl | (exfalso; omega)

set_option maxHeartbeats 1000000 in
theorem sOuter_eq (cfg : Config) (src : Nat → String) (n : Nat) (hn : 0 < n)
    (jC : Nat → Nat) (jS : Nat → Nat → ℚ)
    (hs : ∀ k, k < n → ¬src k = "") :
    sOuter cfg false src n (List.range n) ⟨jC, jS⟩ = Except.ok
      ⟨fun k => if k < n then sz cfg src k else jC k,
       fun a b => if a < b ∧ b < n then sE cfg src a b
         else if a = b ∧ a < n then 0
         else jS a b⟩ := by
  have hrange : List.range n = 0 :: List.range' 1 (n - 1) := by
    rw [List.range_eq_range']
    cases n with
    | zero => omega
    | succ m => rw [List.range'_succ]; simp
  rw [hrange, sOuter]
  simp only [if_pos rfl, if_true, deflate1_buf cfg (src 0) (hs 0 hn), eseq_ok]
  rw [sInner0_eq cfg src _ _ _ (by simp [upd, sz])
    (hs 0 hn)
    (by intro x hx; rw [List.mem_range'_1] at hx; exact hs x (by omega))
    (by intro x hx; rw [List.mem_range'_1] at hx; omega),
    eseq_ok]
  rw [sOuterPos_eq cfg src n _ _ _
    (by intro x hx; rw [List.mem_range'_1] at hx; omega)
    (by
      intro k hk
      by_cases hk0 : k = 0
      · subst hk0
        simp [List.mem_range'_1, upd, sz]
      · simp only [List.mem_range'_1]
        have : 1 ≤ k ∧ k < 1 + (n - 1) := by omega
        simp [this])
    hs]
  rw [Except.ok.injEq, SState.mk.injEq]
  have hnn0 : 1 + (n - 1) = n := by omega
  constructor
  · funext k
    simp only [List.mem_range'_1, hnn0]
    by_cases hk : k < n
    · by_cases hk0 : k = 0
      · subst hk0
        simp [upd, sz, hk]
      · have : 1 ≤ k ∧ k < n := by omega
        simp [this, hk]
    · have : ¬(1 ≤ k ∧ k < n) := by omega
      simp [this, hk, upd_ne _ _ _ _ (by omega : k ≠ 0)]
  · funext a b
    simp only [List.mem_range'_1, hnn0, upd2]
    by_cases ha0 : a = 0 <;> by_cases hb0 : b = 0 <;> subst_vars <;>
      split_ifs <;> first | rfl | (exfalso; omega)

/-- Invariant of the parallel-path cache: every slot either already holds
its stable value, or still holds the sentinel 0 and its stable value is
the standalone compressed size (which a first touch will write). -/
def InvC (cfg : Config) (src : Nat → String) (n : Nat) (jC : Nat → Nat)
    (cache : Nat → Nat) : Prop :=
  ∀ k, cache k = stableC cfg src n jC k ∨
    (cache k = 0 ∧ stableC cfg src n jC k = sz cfg src k)

theorem touch_eq (cfg : Config) (src : Nat → String) (cache : Nat → Nat)
    (k : Nat) (hsk : ¬src k = "") :
    touch cfg false src cache k = Except.ok
      (if cache k = 0 then upd cache k (sz cfg src k) else cache) := by
  by_cases h : cache k = 0 <;>
    simp [touch, h, deflate1_buf cfg (src k) hsk, eseq_ok, sz]

theorem stableC_zero (cfg : Config) (src : Nat → String) (n : Nat)
    (jC : Nat → Nat) (k : Nat) (h : stableC cfg src n jC k = 0) :
    sz cfg src k = 0 := by
  unfold stableC at h
  split_ifs at h with h1 h2
  · exact h
  · exact h
  · exact absurd h h2

theorem touch_stable (cfg : Config) (src : Nat → String) (n : Nat)
    (jC : Nat → Nat) (cache : Nat → Nat) (k : Nat)
    (hInv : InvC cfg src n jC cache) :
    InvC cfg src n jC (if cache k = 0 then upd cache k (sz cfg src k) else cache) ∧
    (if cache k = 0 then upd cache k (sz cfg src k) else cache) k =
      stableC cfg src n jC k ∧
    (∀ x, ¬x = k →
      (if cache k = 0 then upd cache k (sz cfg src k) else cache) x = cache x) := by
  by_cases h : cache k = 0
  · rcases hInv k with hk | ⟨hk0, hks⟩
    · have hstz : stableC cfg src n jC k = 0 := by rw [← hk, h]
      have hsz : sz cfg src k = 0 := stableC_zero cfg src n jC k hstz
      refine ⟨?_, ?_, ?_⟩
      · intro x
        by_cases hx : x = k
        · subst hx
          left
          simp [h, upd, hstz, hsz]
        · simp only [h, if_true]
          rw [upd_ne _ _ _ _ hx]
          exact hInv x
      · simp [h, upd, hstz, hsz]
      · intro x hx
        simp only [h, if_true]
        exact upd_ne _ _ _ _ hx
    · refine ⟨?_, ?_, ?_⟩
      · intro x
        by_cases hx : x = k
        · subst hx
          left
          simp [h, upd, hks]
        · simp only [h, if_true]
          rw [upd_ne _ _ _ _ hx]
          exact hInv x
      · simp [h, upd, hks]
      · intro x hx
        simp only [h, if_true]
        exact upd_ne _ _ _ _ hx
  · rcases hInv k with hk | ⟨hk0, hks⟩
    · exact ⟨by simpa [h] using hInv, by simp only [h, if_false]; exact hk,
        by simp [h]⟩
    · exact absurd hk0 h

theorem symPar_spec (cfg : Config) (src : Nat → String) (n : Nat)
    (jC : Nat → Nat) (ps : List (Nat × Nat)) (cache : Nat → Nat)
    (s : Nat → Nat → ℚ)
    (hInv : InvC cfg src n jC cache)
    (hsp : ∀ p ∈ ps, ¬src p.1 = "" ∧ ¬src p.2 = "") :
    ∃ fin : SState, symPar cfg false src ps ⟨cache, s⟩ = Except.ok fin ∧
      InvC cfg src n jC fin.cache ∧
      (∀ p ∈ ps, fin.sto p.1 p.2 = pE cfg src n jC p.1 p.2) ∧
      (∀ a b, ¬((a, b) ∈ ps) → fin.sto a b = s a b) := by
  induction ps generalizing cache s with
  | nil => exact ⟨⟨cache, s⟩, by simp [symPar], hInv, by simp, by simp⟩
  | cons p ps ih =>
    have hs1 : ¬src p.1 = "" := (hsp p (by simp)).1
    have hs2 : ¬src p.2 = "" := (hsp p (by simp)).2
    obtain ⟨h1Inv, h1k, h1o⟩ := touch_stable cfg src n jC cache p.1 hInv
    set c1 : Nat → Nat := if cache p.1 = 0 then upd cache p.1 (sz cfg src p.1) else cache with hc1
    obtain ⟨h2Inv, h2k, h2o⟩ := touch_stable cfg src n jC c1 p.2 h1Inv
    set c2 : Nat → Nat := if c1 p.2 = 0 then upd c1 p.2 (sz cfg src p.2) else c1 with hc2
    have hc2p1 : c2 p.1 = stableC cfg src n jC p.1 := by
      by_cases hpp : p.1 = p.2
      · rw [hpp]
        exact h2k
      · rw [h2o p.1 hpp]
        exact h1k
    obtain ⟨fin, hfin, hfinInv, hfinval, hfino⟩ :=
      ih c2 (upd2 s p.1 p.2
        (min 1 ((wsub (cfg.C (src p.1 ++ src p.2))
            (min (c2 p.1) (c2 p.2)) : ℚ) /
          ((max (c2 p.1) (c2 p.2) : Nat) : ℚ))))
        h2Inv (fun q hq => hsp q (by simp [hq]))
    refine ⟨fin, ?_, hfinInv, ?_, ?_⟩
    · rw [symPar, touch_eq cfg src cache p.1 hs1, eseq_ok, ← hc1,
        touch_eq cfg src c1 p.2 hs2, eseq_ok, ← hc2,
        deflate_buf cfg (src p.1) (src p.2) hs1, eseq_ok]
      exact hfin
    · intro q hq
      rcases List.mem_cons.mp hq with hq | hq
      · rw [hq]
        by_cases hqin : p ∈ ps
        · exact hfinval p hqin
        · rw [hfino p.1 p.2 (by simpa using hqin)]
          rw [upd2, if_pos ⟨rfl, rfl⟩, hc2p1, h2k]
          rfl
      · exact hfinval q hq
    · intro a b hab
      rw [hfino a b (fun h => hab (by simp [h]))]
      have hne : ¬((a, b) = p) := fun h => hab (by simp [h])
      have hne2 : ¬(a = p.1 ∧ b = p.2) := by
        intro hcon
        exact hne (Prod.ext hcon.1 hcon.2)
      rw [upd2]
      simp only [if_neg hne2]

theorem mem_wavefrontPairs (N a b : Nat) :
    (a, b) ∈ wavefrontPairs N ↔ a < b ∧ b < N := by
  unfold wavefrontPairs
  simp only [List.mem_flatMap, List.mem_map, List.mem_range, Prod.mk.injEq]
  constructor
  · rintro ⟨k, hk, j, hj, hja, hjb⟩
    omega
  · rintro ⟨hab, hbN⟩
    exact ⟨N - 1 - (b - a), by omega, a, by omega, rfl, by omega⟩

theorem nodup_wavefrontPairs (N : Nat) : (wavefrontPairs N).Nodup := by
  unfold wavefrontPairs
  rw [List.nodup_flatMap]
  constructor
  · intro k hk
    refine List.Nodup.map ?_ (List.nodup_range (k + 1))
    intro x y hxy
    simpa using congrArg Prod.fst hxy
  · rw [List.pairwise_iff_forall_sublist]
    intro k1 k2 hsub
    have hk1 : k1 < N - 1 := List.mem_range.mp (hsub.subset (by simp))
    have hk2 : k2 < N - 1 := List.mem_range.mp (hsub.subset (by simp))
    have hlt : k1 < k2 :=
      List.pairwise_iff_forall_sublist.mp (List.pairwise_lt_range (N - 1)) hsub
    simp only [Function.onFun]
    rw [List.disjoint_left]
    intro p hp1 hp2
    simp only [List.mem_map, List.mem_range] at hp1 hp2
    obtain ⟨j1, hj1, he1⟩ := hp1
    obtain ⟨j2, hj2, he2⟩ := hp2
    rw [← he2] at he1
    have h1 : j1 = j2 := by simpa using congrArg Prod.fst he1
    have h2 : N - 1 - k1 + j1 = N - 1 - k2 + j2 := by
      simpa using congrArg Prod.snd he1
    omega

theorem beqProdNat : (instBEqProd : BEq (Nat × Nat)) = instBEqOfDecidableEq := by
  refine congrArg BEq.mk (funext fun p => funext fun q => ?_)
  show (p.1 == q.1 && p.2 == q.2) = decide (p = q)
  by_cases h1 : p.1 = q.1 <;> by_cases h2 : p.2 = q.2 <;>
    simp [h1, h2, Prod.ext_iff]

theorem count_wavefrontPairs (N i j : Nat) (hij : i < j) (hjN : j < N) :
    (wavefrontPairs N).count (i, j) = 1 := by
  rw [List.count, beqProdNat]
  exact List.count_eq_one_of_mem (nodup_wavefrontPairs N)
    ((mem_wavefrontPairs N i j).mpr ⟨hij, hjN⟩)

/-- The triangular numbers: how many wavefront pairs precede the block of
diagonal distance `N - 1 - k`. -/
def tri : Nat → Nat
  | 0 => 0
  | k + 1 => tri k + (k + 1)

theorem wavefront_prefix_length (N k : Nat) :
    ((List.range k).flatMap (fun q =>
      (List.range (q + 1)).map (fun j => (j, (N - 1 - q) + j)))).length = tri k := by
  induction k with
  | zero => simp [tri]
  | succ m ih =>
    rw [List.range_succ, List.flatMap_append]
    simp [ih, tri]

theorem wavefrontPairs_get (N i j : Nat) (hij : i < j) (hjN : j < N) :
    (wavefrontPairs N)[tri (N - 1 - (j - i)) + i]? = some (i, j) := by
  have hd1 : 1 ≤ j - i := by omega
  have hdN : j - i ≤ N - 1 := by omega
  have hkN : N - 1 - (j - i) < N - 1 := by omega
  have h1 : List.range' 0 (N - 1 - (j - i)) ++
      List.range' (N - 1 - (j - i)) (N - 1 - (N - 1 - (j - i))) =
      List.range' 0 (N - 1) := by
    have h2 := List.range'_append 0 (N - 1 - (j - i))
      (N - 1 - (N - 1 - (j - i))) 1
    simp only [Nat.zero_add, Nat.one_mul] at h2
    rw [h2]
    congr 1
    omega
  have hsplit : List.range (N - 1) =
      List.range (N - 1 - (j - i)) ++
        List.range' (N - 1 - (j - i)) (N - 1 - (N - 1 - (j - i))) := by
    rw [List.range_eq_range', List.range_eq_range', ← h1]
  rw [wavefrontPairs, hsplit, List.flatMap_append,
    List.getElem?_append_right (by rw [wavefront_prefix_length]; omega),
    wavefront_prefix_length]
  have hidx : tri (N - 1 - (j - i)) + i - tri (N - 1 - (j - i)) = i := by omega
  rw [hidx]
  have hcons : List.range' (N - 1 - (j - i)) (N - 1 - (N - 1 - (j - i))) =
      (N - 1 - (j - i)) :: List.range' (N - 1 - (j - i) + 1)
        (N - 1 - (N - 1 - (j - i)) - 1) := by
    have h3 : N - 1 - (N - 1 - (j - i)) = (N - 1 - (N - 1 - (j - i)) - 1) + 1 := by
      omega
    conv_lhs => rw [h3]
    rw [List.range'_succ]
  rw [hcons, List.flatMap_cons,
    List.getElem?_append_left (by simp; omega),
    List.getElem?_map, List.getElem?_range (by omega)]
  have h4 : N - 1 - (N - 1 - (j - i)) + i = j := by omega
  simp [h4]

theorem mem_wfInsert (T n0 : Nat) (ps : List (Nat × Nat)) (t : Nat) (p : Nat × Nat) :
    (t, p) ∈ wfInsert T n0 ps ↔ ∃ k, ps[k]? = some p ∧ (n0 + k) % T = t := by
  induction ps generalizing n0 with
  | nil => simp [wfInsert]
  | cons q ps ih =>
    rw [wfInsert]
    simp only [List.mem_cons]
    constructor
    · rintro (h | h)
      · refine ⟨0, ?_, ?_⟩
        · have h1 : p = (q.1, q.2) := by
            have := congrArg (fun x : Nat × Nat × Nat => x.2) h
            simpa using this
          simp [h1]
        · have h2 : t = n0 % T := by
            have := congrArg (fun x : Nat × Nat × Nat => x.1) h
            simpa using this
          simp [h2]
      · obtain ⟨k, hk, hkt⟩ := (ih (n0 + 1)).mp h
        exact ⟨k + 1, by simpa using hk, by rw [← hkt]; congr 1; omega⟩
    · rintro ⟨k, hk, hkt⟩
      cases k with
      | zero =>
        left
        simp only [List.getElem?_cons_zero, Option.some.injEq] at hk
        rw [← hk, ← hkt]
        simp
      | succ m =>
        right
        refine (ih (n0 + 1)).mpr ⟨m, by simpa using hk, ?_⟩
        rw [← hkt]
        congr 1
        omega

theorem mem_lanePairs (N T t : Nat) (p : Nat × Nat) :
    p ∈ lanePairs N T t ↔
      ∃ k, (wavefrontPairs N)[k]? = some p ∧ k % T = t := by
  unfold lanePairs wavefrontEntries
  simp only [List.mem_map, List.mem_filter]
  constructor
  · rintro ⟨e, ⟨he, het⟩, hep⟩
    have he2 : e = (t, p) := by
      have h1 : e.1 = t := by simpa using het
      have h2 : e.2 = p := hep
      rw [← h1, ← h2]
    rw [he2] at he
    obtain ⟨k, hk, hkt⟩ := (mem_wfInsert T 0 (wavefrontPairs N) t p).mp he
    exact ⟨k, hk, by simpa using hkt⟩
  · rintro ⟨k, hk, hkt⟩
    refine ⟨(t, p), ⟨?_, by simp⟩, rfl⟩
    exact (mem_wfInsert T 0 (wavefrontPairs N) t p).mpr ⟨k, hk, by simpa using hkt⟩

theorem mem_laneSeq (N T : Nat) (p : Nat × Nat) (hT : 1 ≤ T) :
    p ∈ laneSeq N T ↔ p ∈ wavefrontPairs N := by
  unfold laneSeq
  simp only [List.mem_flatMap, List.mem_range]
  constructor
  · rintro ⟨t, ht, hp⟩
    obtain ⟨k, hk, -⟩ := (mem_lanePairs N T t p).mp hp
    exact List.getElem?_mem hk
  · intro hp
    obtain ⟨k, hk⟩ := List.getElem?_of_mem hp
    exact ⟨k % T, Nat.mod_lt _ (by omega),
      (mem_lanePairs N T (k % T) p).mpr ⟨k, hk, rfl⟩⟩

theorem laneSeq_bounds (N T : Nat) (p : Nat × Nat) (hp : p ∈ laneSeq N T) :
    p.1 < p.2 ∧ p.2 < N := by
  unfold laneSeq at hp
  simp only [List.mem_flatMap, List.mem_range] at hp
  obtain ⟨t, ht, hp⟩ := hp
  obtain ⟨k, hk, -⟩ := (mem_lanePairs N T t p).mp hp
  have := List.getElem?_mem hk
  exact (mem_wavefrontPairs N p.1 p.2).mp (by simpa using this)

theorem lane_unique (N T t1 t2 i j : Nat) (_hT : 1 ≤ T)
    (h1 : (i, j) ∈ lanePairs N T t1) (h2 : (i, j) ∈ lanePairs N T t2) :
    t1 = t2 := by
  obtain ⟨k1, hk1, hkt1⟩ := (mem_lanePairs N T t1 (i, j)).mp h1
  obtain ⟨k2, hk2, hkt2⟩ := (mem_lanePairs N T t2 (i, j)).mp h2
  have hlen1 : k1 < (wavefrontPairs N).length := by
    by_contra h
    rw [List.getElem?_eq_none (by omega)] at hk1
    exact Option.noConfusion hk1
  have hlen2 : k2 < (wavefrontPairs N).length := by
    by_contra h
    rw [List.getElem?_eq_none (by omega)] at hk2
    exact Option.noConfusion hk2
  have hg1 : (wavefrontPairs N)[k1] = (i, j) := by
    have := List.getElem?_eq_getElem hlen1
    rw [this] at hk1
    exact Option.some.inj hk1
  have hg2 : (wavefrontPairs N)[k2] = (i, j) := by
    have := List.getElem?_eq_getElem hlen2
    rw [this] at hk2
    exact Option.some.inj hk2
  have hkk : k1 = k2 := by
    have := @List.Nodup.getElem_inj_iff (Nat × Nat) (wavefrontPairs N)
      (nodup_wavefrontPairs N) k1 hlen1 k2 hlen2
    exact this.mp (by rw [hg1, hg2])
  rw [← hkt1, ← hkt2, hkk]

theorem src_ne (items : List String) (hs : ∀ s ∈ items, ¬s = "") :
    ∀ k, k < items.length → ¬(items.getD k "") = "" := by
  intro k hk
  rw [List.getD_eq_getElem items "" hk]
  exact hs _ (List.getElem_mem hk)

theorem calculate_eq (cfg : Config) (a b : String) (isfile : Bool)
    (fa fb fab : Nat)
    (ha : deflate1 cfg isfile a = Except.ok fa)
    (hb : deflate1 cfg isfile b = Except.ok fb)
    (hab : deflate cfg isfile a b = Except.ok fab) :
    calculate cfg a b isfile = Except.ok
      (((fab : ℚ) - ((min fa fb : Nat) : ℚ)) / ((max fa fb : Nat) : ℚ)) := by
  rw [calculate, ha, eseq_ok, hb, eseq_ok, hab, eseq_ok]

theorem unsymmetric_run (cfg : Config) (items : List String)
    (jC : Nat → Nat) (jM : Nat → Nat → ℚ)
    (hne : ¬items = []) (hs : ∀ s ∈ items, ¬s = "") :
    unsymmetric cfg items false jC jM = Except.ok
      (fun a b => if a < items.length ∧ b < items.length then
          (if a = b then 0 else uE cfg (fun k => items.getD k "") a b)
        else jM a b,
       uTrace items.length) := by
  have hn : 0 < items.length := List.length_pos.mpr hne
  have h := uOuter_eq cfg (fun k => items.getD k "") items.length hn jC jM
    (src_ne items hs)
  unfold unsymmetric unsymmetricS
  rw [if_neg (by omega)]
  simp only [h]

theorem symmetricS_par (cfg : Config) (st : EngineState) (items : List String)
    (jC : Nat → Nat) (jS : Nat → Nat → ℚ)
    (hne : ¬items = []) (hs : ∀ s ∈ items, ¬s = "") (hhw : cfg.hw > 1) :
    ∃ fin : SState,
      symPar cfg false (fun k => items.getD k "")
        (laneSeq items.length cfg.hw)
        ⟨upd (upd jC 0 (sz cfg (fun k => items.getD k "") 0))
          (items.length - 1) (sz cfg (fun k => items.getD k "") (items.length - 1)), jS⟩ =
        Except.ok fin ∧
      symmetricS cfg st items false jC jS =
        (Except.ok (symRead fin.sto),
          ⟨fin.sto, fun _ _ => 0, wavefrontEntries items.length cfg.hw,
            fin.cache, items, false⟩) ∧
      (∀ p ∈ laneSeq items.length cfg.hw,
        fin.sto p.1 p.2 =
          pE cfg (fun k => items.getD k "") items.length jC p.1 p.2) ∧
      (∀ a b : Nat, ¬((a, b) ∈ laneSeq items.length cfg.hw) →
        fin.sto a b = jS a b) := by
  have hn : 0 < items.length := List.length_pos.mpr hne
  have hsrc := src_ne items hs
  set src : Nat → String := fun k => items.getD k "" with hsrcdef
  set n : Nat := items.length with hndef
  have hInv0 : InvC cfg src n jC
      (upd (upd jC 0 (sz cfg src 0)) (n - 1) (sz cfg src (n - 1))) := by
    intro k
    by_cases hk1 : k = n - 1
    · subst hk1
      left
      rw [upd_self, stableC, if_pos (Or.inr rfl)]
    · by_cases hk0 : k = 0
      · subst hk0
        left
        rw [upd_ne _ _ _ _ hk1, upd_self, stableC, if_pos (Or.inl rfl)]
      · rw [upd_ne _ _ _ _ hk1, upd_ne _ _ _ _ hk0]
        by_cases hj : jC k = 0
        · right
          rw [stableC, if_neg (by tauto), if_pos hj]
          exact ⟨hj, rfl⟩
        · left
          rw [stableC, if_neg (by tauto), if_neg hj]
  have hps : ∀ p ∈ laneSeq n cfg.hw, ¬src p.1 = "" ∧ ¬src p.2 = "" := by
    intro p hp
    have hb := laneSeq_bounds n cfg.hw p hp
    exact ⟨hsrc p.1 (by omega), hsrc p.2 (by omega)⟩
  obtain ⟨fin, hfin, hfinInv, hfinval, hfino⟩ :=
    symPar_spec cfg src n jC (laneSeq n cfg.hw)
      (upd (upd jC 0 (sz cfg src 0)) (n - 1) (sz cfg src (n - 1))) jS hInv0 hps
  refine ⟨fin, hfin, ?_, hfinval, hfino⟩
  unfold symmetricS
  rw [if_neg (by omega)]
  simp only [← hsrcdef, ← hndef, if_pos hhw, deflate1_buf cfg (src 0) (hsrc 0 hn),
    deflate1_buf cfg (src (n - 1)) (hsrc (n - 1) (by omega))]
  simp only [sz] at hfin
  rw [hfin]

theorem sum_map_zero (L : List Nat) (g : Nat → Nat)
    (h0 : ∀ x ∈ L, g x = 0) : (L.map g).sum = 0 := by
  induction L with
  | nil => simp
  | cons a L ih =>
    simp only [List.map_cons, List.sum_cons, h0 a (by simp)]
    rw [ih (fun x hx => h0 x (by simp [hx]))]

theorem sum_map_one (L : List Nat) (g : Nat → Nat) (k : Nat)
    (hnd : L.Nodup) (hk : k ∈ L) (h1 : g k = 1)
    (h0 : ∀ x ∈ L, ¬x = k → g x = 0) : (L.map g).sum = 1 := by
  induction L with
  | nil => simp at hk
  | cons a L ih =>
    rcases List.mem_cons.mp hk with rfl | hkL
    · simp only [List.map_cons, List.sum_cons, h1]
      rw [sum_map_zero L g (fun x hx => h0 x (by simp [hx])
        (fun hc => (List.nodup_cons.mp hnd).1 (hc ▸ hx)))]
    · have ha : ¬a = k := fun hc => (List.nodup_cons.mp hnd).1 (hc ▸ hkL)
      simp only [List.map_cons, List.sum_cons, h0 a (by simp) ha]
      rw [ih (List.nodup_cons.mp hnd).2 hkL (fun x hx hxk => h0 x (by simp [hx]) hxk)]

theorem nodup_range' (s l : Nat) : (List.range' s l).Nodup := by
  have := List.pairwise_lt_range' s l 1 (by omega)
  exact this.imp (fun h => Nat.ne_of_lt h)

theorem uTrace_count_std (n k : Nat) (hk : k < n) :
    (uTrace n).count (Ev.std k) = 1 := by
  unfold uTrace
  rw [List.count_append, List.count_append, List.count_flatMap, List.count_flatMap]
  by_cases hk0 : k = 0
  · subst hk0
    rw [sum_map_zero _ _ (by
      intro x hx
      rw [List.mem_range'_1] at hx
      simp only [Function.comp]
      simp [List.count_cons, show ¬x = 0 by omega])]
    rw [sum_map_zero _ _ (by
      intro x hx
      rw [List.mem_range'_1] at hx
      simp only [Function.comp]
      rw [List.count_flatMap]
      exact sum_map_zero _ _ (fun y hy => by simp [List.count_cons]))]
    simp
  · rw [sum_map_one _ _ k (nodup_range' 1 (n - 1))
      (by rw [List.mem_range'_1]; omega)
      (by simp only [Function.comp]; simp [List.count_cons])
      (by
        intro x hx hxk
        simp only [Function.comp]
        simp [List.count_cons, hxk])]
    rw [sum_map_zero _ _ (by
      intro x hx
      simp only [Function.comp]
      rw [List.count_flatMap]
      exact sum_map_zero _ _ (fun y hy => by simp [List.count_cons]))]
    simp [List.count_singleton, hk0]

theorem uTrace_count_cat (n i j : Nat) (hij : i < j) (hjn : j < n) :
    (uTrace n).count (Ev.cat i j) = 1 := by
  unfold uTrace
  rw [List.count_append, List.count_append, List.count_flatMap, List.count_flatMap]
  by_cases hi0 : i = 0
  · subst hi0
    rw [sum_map_one _ _ j (nodup_range' 1 (n - 1))
      (by rw [List.mem_range'_1]; omega)
      (by simp only [Function.comp]; simp [List.count_cons, show ¬j = 0 by omega])
      (by
        intro x hx hxj
        simp only [Function.comp]
        rw [List.mem_range'_1] at hx
        simp [List.count_cons, hxj, show ¬x = 0 by omega, show ¬(0 : Nat) = j by omega])]
    rw [sum_map_zero _ _ (by
      intro x hx
      rw [List.mem_range'_1] at hx
      simp only [Function.comp]
      rw [List.count_flatMap]
      refine sum_map_zero _ _ (fun y hy => ?_)
      rw [List.mem_range'_1] at hy
      simp [List.count_cons, show ¬x = 0 by omega, show ¬y = 0 by omega])]
    simp
  · rw [sum_map_zero _ _ (by
      intro x hx
      rw [List.mem_range'_1] at hx
      simp only [Function.comp]
      simp [List.count_cons, show ¬(0 : Nat) = i by omega, show ¬(0 : Nat) = j by omega])]
    rw [sum_map_one _ _ i (nodup_range' 1 (n - 1))
      (by rw [List.mem_range'_1]; omega)
      (by
        simp only [Function.comp]
        rw [List.count_flatMap]
        exact sum_map_one _ _ j (nodup_range' (i + 1) (n - (i + 1)))
          (by rw [List.mem_range'_1]; omega)
          (by simp [List.count_cons, show ¬i = j by omega])
          (by
            intro y hy hyj
            rw [List.mem_range'_1] at hy
            simp [List.count_cons, hyj, show ¬(y = i ∧ i = j) by omega]))
      (by
        intro x hx hxi
        simp only [Function.comp]
        rw [List.mem_range'_1] at hx
        rw [List.count_flatMap]
        refine sum_map_zero _ _ (fun y hy => ?_)
        rw [List.mem_range'_1] at hy
        simp [List.count_cons, show ¬(x = i ∧ y = j) by tauto,
          show ¬(y = i ∧ x = j) by omega])]
    simp [List.count_singleton, show ¬(Ev.std 0 = Ev.cat i j) from fun h => Ev.noConfusion h]

theorem uTrace_count_tac (n i j : Nat) (hij : i < j) (hjn : j < n) :
    (uTrace n).count (Ev.cat j i) = 1 := by
  unfold uTrace
  rw [List.count_append, List.count_append, List.count_flatMap, List.count_flatMap]
  by_cases hi0 : i = 0
  · subst hi0
    rw [sum_map_one _ _ j (nodup_range' 1 (n - 1))
      (by rw [List.mem_range'_1]; omega)
      (by simp only [Function.comp]; simp [List.count_cons, show ¬(0 : Nat) = j by omega])
      (by
        intro x hx hxj
        simp only [Function.comp]
        rw [List.mem_range'_1] at hx
        simp [List.count_cons, hxj, show ¬(0 : Nat) = j by omega])]
    rw [sum_map_zero _ _ (by
      intro x hx
      rw [List.mem_range'_1] at hx
      simp only [Function.comp]
      rw [List.count_flatMap]
      refine sum_map_zero _ _ (fun y hy => ?_)
      rw [List.mem_range'_1] at hy
      simp [List.count_cons, show ¬(x = j ∧ y = 0) by omega,
        show ¬(y = j ∧ x = 0) by omega])]
    simp
  · rw [sum_map_zero _ _ (by
      intro x hx
      rw [List.mem_range'_1] at hx
      simp only [Function.comp]
      simp [List.count_cons, show ¬(0 : Nat) = j by omega,
        show ¬(x = j ∧ 0 = i) by omega])]
    rw [sum_map_one _ _ i (nodup_range' 1 (n - 1))
      (by rw [List.mem_range'_1]; omega)
      (by
        simp only [Function.comp]
        rw [List.count_flatMap]
        exact sum_map_one _ _ j (nodup_range' (i + 1) (n - (i + 1)))
          (by rw [List.mem_range'_1]; omega)
          (by simp [List.count_cons, show ¬(i = j ∧ j = i) by omega])
          (by
            intro y hy hyj
            rw [List.mem_range'_1] at hy
            simp [List.count_cons, hyj, show ¬(i = j ∧ y = i) by omega,
              show ¬(y = j ∧ i = i) by tauto]))
      (by
        intro x hx hxi
        simp only [Function.comp]
        rw [List.mem_range'_1] at hx
        rw [List.count_flatMap]
        refine sum_map_zero _ _ (fun y hy => ?_)
        rw [List.mem_range'_1] at hy
        simp [List.count_cons, show ¬(x = j ∧ y = i) by omega,
          show ¬(y = j ∧ x = i) by tauto])]
    simp [List.count_singleton, show ¬(Ev.std 0 = Ev.cat j i) from fun h => Ev.noConfusion h]

theorem symmetricS_seq (cfg : Config) (st : EngineState) (items : List String)
    (jC : Nat → Nat) (jS : Nat → Nat → ℚ)
    (hne : ¬items = []) (hs : ∀ s ∈ items, ¬s = "") (hhw : ¬cfg.hw > 1) :
    symmetricS cfg st items false jC jS =
      (Except.ok (symRead (fun a b =>
        if a < b ∧ b < items.length then sE cfg (fun k => items.getD k "") a b
        else if a = b ∧ a < items.length then 0
        else jS a b)),
       ⟨(fun a b =>
          if a < b ∧ b < items.length then sE cfg (fun k => items.getD k "") a b
          else if a = b ∧ a < items.length then 0
          else jS a b),
        fun _ _ => 0, st.mwavefront,
        (fun k => if k < items.length then sz cfg (fun k => items.getD k "") k
          else jC k),
        items, false⟩) := by
  have hn : 0 < items.length := List.length_pos.mpr hne
  have h := sOuter_eq cfg (fun k => items.getD k "") items.length hn jC jS
    (src_ne items hs)
  unfold symmetricS
  rw [if_neg (by omega), if_neg hhw]
  simp only [h]

theorem length_ne_zero (items : List String) (hne : ¬items = []) :
    ¬items.length = 0 := by
  intro h
  exact hne (List.length_eq_zero.mp h)

theorem symmetricS_fst (cfg : Config) (st : EngineState) (items : List String)
    (isfile : Bool) (jC : Nat → Nat) (jS : Nat → Nat → ℚ) :
    (symmetricS cfg st items isfile jC jS).1 =
      symmetric cfg items isfile jC jS := by
  unfold symmetric symmetricS
  by_cases h : items.length = 0
  · rw [if_pos h, if_pos h]
  · rw [if_neg h, if_neg h]
    by_cases hw : cfg.hw > 1
    · simp only [if_pos hw]
      cases h0 : deflate1 cfg isfile (items.getD 0 "") with
      | error e => rfl
      | ok v0 =>
        simp only []
        cases h1 : deflate1 cfg isfile (items.getD (items.length - 1) "") with
        | error e => rfl
        | ok v1 => simp only []
    · simp only [if_neg hw]
      cases h2 : sOuter cfg isfile (fun k => items.getD k "") items.length
          (List.range items.length) ⟨jC, jS⟩ with
      | error e => rfl
      | ok fin => rfl

theorem symmetricS_snd (cfg : Config) (st : EngineState) (items : List String)
    (isfile : Bool) (jC : Nat → Nat) (jS : Nat → Nat → ℚ) (hne : ¬items = []) :
    (symmetricS cfg st items isfile jC jS).2.msources = items ∧
    (symmetricS cfg st items isfile jC jS).2.misfile = isfile := by
  unfold symmetricS
  rw [if_neg (length_ne_zero items hne)]
  by_cases hw : cfg.hw > 1
  · simp only [if_pos hw]
    cases h0 : deflate1 cfg isfile (items.getD 0 "") with
    | error e => exact ⟨rfl, rfl⟩
    | ok v0 =>
      simp only []
      cases h1 : deflate1 cfg isfile (items.getD (items.length - 1) "") with
      | error e => exact ⟨rfl, rfl⟩
      | ok v1 =>
        simp only []
        cases h2 : symPar cfg isfile (fun k => items.getD k "")
            (laneSeq items.length cfg.hw)
            ⟨upd (upd jC 0 v0) (items.length - 1) v1, jS⟩ with
        | error e => exact ⟨rfl, rfl⟩
        | ok fin => exact ⟨rfl, rfl⟩
  · simp only [if_neg hw]
    cases h2 : sOuter cfg isfile (fun k => items.getD k "") items.length
        (List.range items.length) ⟨jC, jS⟩ with
    | error e => exact ⟨rfl, rfl⟩
    | ok fin => exact ⟨rfl, rfl⟩

theorem unsymmetricS_fst (cfg : Config) (st : EngineState) (items : List String)
    (isfile : Bool) (jC : Nat → Nat) (jM : Nat → Nat → ℚ) :
    (unsymmetricS cfg st items isfile jC jM).1 =
      unsymmetric cfg items isfile jC jM := by
  unfold unsymmetric unsymmetricS
  by_cases h : items.length = 0
  · rw [if_pos h, if_pos h]
  · rw [if_neg h, if_neg h]
    simp only []
    cases h2 : uOuter cfg isfile (fun k => items.getD k "") items.length
        (List.range items.length) ⟨jC, jM, []⟩ with
    | error e => rfl
    | ok fin => rfl

theorem unsymmetricS_snd (cfg : Config) (st : EngineState) (items : List String)
    (isfile : Bool) (jC : Nat → Nat) (jM : Nat → Nat → ℚ) (hne : ¬items = []) :
    (unsymmetricS cfg st items isfile jC jM).2 =
      ⟨st.msymmetric, st.munsymmetric, st.mwavefront, st.mcache,
        st.msources, isfile⟩ := by
  unfold unsymmetricS
  rw [if_neg (length_ne_zero items hne)]
  simp only []
  cases h2 : uOuter cfg isfile (fun k => items.getD k "") items.length
      (List.range items.length) ⟨jC, jM, []⟩ with
  | error e => rfl
  | ok fin => rfl

theorem symOf_ok (m : Nat → Nat → ℚ) : symOf (Except.ok m) = m := rfl

theorem matOf_ok (p : (Nat → Nat → ℚ) × List Ev) : matOf (Except.ok p) = p.1 := rfl

theorem traceOf_ok (p : (Nat → Nat → ℚ) × List Ev) :
    traceOf (Except.ok p) = p.2 := rfl

/-! Concrete oracles and initial-contents functions used by witnesses and
counterexamples. -/

/-- Oracle for witnesses: compressed size = byte length. -/
def cfgLen1 : Config := ⟨String.length, fun _ => none, 1⟩

/-- Same oracle with two reported hardware execution units. -/
def cfgLen2 : Config := ⟨String.length, fun _ => none, 2⟩

/-- Oracle on which `calculate` exceeds 1: the concatenation compresses to
16 bytes while each part compresses to 4. -/
def cfgBigAB : Config := ⟨fun s => if s = "abb" then 16 else 4, fun _ => none, 1⟩

/-- Oracle on which an `unsymmetric` entry is negative: the concatenation
compresses to 1 byte while each part compresses to 5. -/
def cfgNeg : Config := ⟨fun s => if s = "ab" then 1 else 5, fun _ => none, 1⟩

/-- All-zero fresh-cache contents (the lucky case the code relies on). -/
def jz : Nat → Nat := fun _ => 0

/-- All-zero fresh-matrix contents. -/
def jq0 : Nat → Nat → ℚ := fun _ _ => 0

/-- Fresh-matrix contents that happen to hold the value 7 everywhere. -/
def jq7 : Nat → Nat → ℚ := fun _ _ => 7

/-- C1: for every pair of inputs whose three compressed-size queries
succeed, `calculate(a, b, isFile)` returns exactly
`(sizeAB - min(sizeA, sizeB)) / max(sizeA, sizeB)`, with no clamping to
any interval (the witness exhibits the value 3 > 1). -/
theorem calculate_exact_unclamped (cfg : Config) (a b : String) (isfile : Bool)
    (fa fb fab : Nat)
    (ha : deflate1 cfg isfile a = Except.ok fa)
    (hb : deflate1 cfg isfile b = Except.ok fb)
    (hab : deflate cfg isfile a b = Except.ok fab) :
    calculate cfg a b isfile = Except.ok
      (((fab : ℚ) - ((min fa fb : Nat) : ℚ)) / ((max fa fb : Nat) : ℚ)) :=
  calculate_eq cfg a b isfile fa fb fab ha hb hab

/-- Witness for C1 at a concrete input, with value 3 (unclamped, above 1). -/
theorem calculate_exact_unclamped_witness :
    deflate1 cfgBigAB false "a" = Except.ok 4 ∧
    deflate cfgBigAB false "a" "bb" = Except.ok 16 ∧
    calculate cfgBigAB "a" "bb" false = Except.ok 3 ∧ (1 : ℚ) < 3 := by
  refine ⟨by rfl, by rfl, ?_, by norm_num⟩
  have h := calculate_exact_unclamped cfgBigAB "a" "bb" false 4 4 16
    (by rfl) (by rfl) (by rfl)
  rw [h]
  norm_num

/-- C7: the empty batch is rejected by both batch calls with the
`vector size must be greater than zero` parameter exception
(the spec's `InvalidArgument`); no matrix is built and the engine state is
untouched. -/
theorem empty_batch_rejected (cfg : Config) (st : EngineState) (isfile : Bool)
    (jC : Nat → Nat) (jM jS : Nat → Nat → ℚ) :
    unsymmetricS cfg st [] isfile jC jM = (Except.error Err.emptyVector, st) ∧
    symmetricS cfg st [] isfile jC jS = (Except.error Err.emptyVector, st) :=
  ⟨rfl, rfl⟩

/-- C10: a two-argument compressed-size query with an empty second string
does not fail — emptiness is checked only on the first argument — and in
buffer mode it compresses `a ++ "" = a`, the same size the one-argument
query returns. -/
theorem deflate_empty_second (cfg : Config) (a : String) (ha : ¬a = "") :
    deflate cfg false a "" = Except.ok (cfg.C a) ∧
    deflate cfg false a "" = deflate1 cfg false a := by
  refine ⟨?_, rfl⟩
  rw [deflate_buf cfg a "" ha]
  simp

/-- Witness for C10 at a concrete input. -/
theorem deflate_empty_second_witness :
    (¬"xy" = "") ∧ deflate cfgLen1 false "xy" "" = Except.ok (cfgLen1.C "xy") ∧
    deflate cfgLen1 false "xy" "" = deflate1 cfgLen1 false "xy" := by
  refine ⟨by decide, ?_, ?_⟩
  · exact (deflate_empty_second cfgLen1 "xy" (by decide)).1
  · exact (deflate_empty_second cfgLen1 "xy" (by decide)).2

/-- C5: for any worker count `T ≥ 1`, the wavefront enumeration contains
each unordered pair `(i, j)`, `i < j < N`, exactly once; the pair stands
at enumeration index `tri (N-1-(j-i)) + i` — the position the
anti-diagonal order (outer diagonal distance `N-1` down to `1`, inner
start index) assigns it — the multimap gives it to lane
`(that index) mod T`, and no other lane contains it. -/
theorem wavefront_partition (N T i j : Nat) (hij : i < j) (hjN : j < N)
    (hT : 1 ≤ T) :
    (wavefrontPairs N).count (i, j) = 1 ∧
    (wavefrontPairs N)[tri (N - 1 - (j - i)) + i]? = some (i, j) ∧
    (i, j) ∈ lanePairs N T ((tri (N - 1 - (j - i)) + i) % T) ∧
    (∀ t1 t2 : Nat, (i, j) ∈ lanePairs N T t1 → (i, j) ∈ lanePairs N T t2 →
      t1 = t2) := by
  refine ⟨count_wavefrontPairs N i j hij hjN,
    wavefrontPairs_get N i j hij hjN, ?_, ?_⟩
  · exact (mem_lanePairs N T _ (i, j)).mpr
      ⟨tri (N - 1 - (j - i)) + i, wavefrontPairs_get N i j hij hjN, rfl⟩
  · intro t1 t2 h1 h2
    exact lane_unique N T t1 t2 i j hT h1 h2

/-- Witness for C5 at `N = 4`, `T = 2`, pair `(1, 3)`. -/
theorem wavefront_partition_witness :
    (1 < 3 ∧ 3 < 4 ∧ 1 ≤ 2) ∧
    ((wavefrontPairs 4).count (1, 3) = 1 ∧
    (wavefrontPairs 4)[tri (4 - 1 - (3 - 1)) + 1]? = some (1, 3) ∧
    (1, 3) ∈ lanePairs 4 2 ((tri (4 - 1 - (3 - 1)) + 1) % 2) ∧
    (∀ t1 t2 : Nat, (1, 3) ∈ lanePairs 4 2 t1 → (1, 3) ∈ lanePairs 4 2 t2 →
      t1 = t2)) :=
  ⟨⟨by decide, by decide, by decide⟩,
    wavefront_partition 4 2 1 3 (by decide) (by decide) (by decide)⟩

/-- C6: on a non-empty buffer-mode batch of non-empty items,
`unsymmetric` issues the standalone compression of each item exactly once
(memoized during row 0), issues both concatenation directions for every
unordered pair exactly once each, maps each direction independently
through the NCD formula, and clamps every off-diagonal entry from above
by 1. -/
theorem unsymmetric_memo_both_directions (cfg : Config) (items : List String)
    (jC : Nat → Nat) (jM : Nat → Nat → ℚ)
    (hne : ¬items = []) (hs : ∀ s ∈ items, ¬s = "") :
    okOf (unsymmetric cfg items false jC jM) = true ∧
    (∀ k, k < items.length →
      (traceOf (unsymmetric cfg items false jC jM)).count (Ev.std k) = 1) ∧
    (∀ i j, i < j → j < items.length →
      (traceOf (unsymmetric cfg items false jC jM)).count (Ev.cat i j) = 1 ∧
      (traceOf (unsymmetric cfg items false jC jM)).count (Ev.cat j i) = 1 ∧
      matOf (unsymmetric cfg items false jC jM) i j =
        uE cfg (fun k => items.getD k "") i j ∧
      matOf (unsymmetric cfg items false jC jM) j i =
        uE cfg (fun k => items.getD k "") j i ∧
      matOf (unsymmetric cfg items false jC jM) i j ≤ 1 ∧
      matOf (unsymmetric cfg items false jC jM) j i ≤ 1) := by
  rw [unsymmetric_run cfg items jC jM hne hs]
  refine ⟨rfl, ?_, ?_⟩
  · intro k hk
    exact uTrace_count_std items.length k hk
  · intro i j hij hjn
    refine ⟨uTrace_count_cat items.length i j hij hjn,
      uTrace_count_tac items.length i j hij hjn, ?_, ?_, ?_, ?_⟩
    · show (if i < items.length ∧ j < items.length then
          (if i = j then 0 else uE cfg (fun k => items.getD k "") i j)
        else jM i j) = uE cfg (fun k => items.getD k "") i j
      rw [if_pos ⟨by omega, hjn⟩, if_neg (by omega)]
    · show (if j < items.length ∧ i < items.length then
          (if j = i then 0 else uE cfg (fun k => items.getD k "") j i)
        else jM j i) = uE cfg (fun k => items.getD k "") j i
      rw [if_pos ⟨hjn, by omega⟩, if_neg (by omega)]
    · show (if i < items.length ∧ j < items.length then
          (if i = j then 0 else uE cfg (fun k => items.getD k "") i j)
        else jM i j) ≤ 1
      rw [if_pos ⟨by omega, hjn⟩, if_neg (by omega)]
      exact min_le_right _ _
    · show (if j < items.length ∧ i < items.length then
          (if j = i then 0 else uE cfg (fun k => items.getD k "") j i)
        else jM j i) ≤ 1
      rw [if_pos ⟨hjn, by omega⟩, if_neg (by omega)]
      exact min_le_right _ _

/-- Witness for C6 on the batch `["ab", "c"]`. -/
theorem unsymmetric_memo_both_directions_witness :
    (¬(["ab", "c"] : List String) = []) ∧
    okOf (unsymmetric cfgLen1 ["ab", "c"] false jz jq0) = true ∧
    (∀ k, k < 2 →
      (traceOf (unsymmetric cfgLen1 ["ab", "c"] false jz jq0)).count (Ev.std k) = 1) ∧
    (traceOf (unsymmetric cfgLen1 ["ab", "c"] false jz jq0)).count (Ev.cat 0 1) = 1 ∧
    (traceOf (unsymmetric cfgLen1 ["ab", "c"] false jz jq0)).count (Ev.cat 1 0) = 1 := by
  have h := unsymmetric_memo_both_directions cfgLen1 ["ab", "c"] jz jq0
    (by simp) (by intro s hs; fin_cases hs <;> simp)
  refine ⟨by simp, h.1, ?_, (h.2.2 0 1 (by decide) (by decide)).1,
    (h.2.2 0 1 (by decide) (by decide)).2.1⟩
  intro k hk
  exact h.2.1 k (by simpa using hk)

/-- C3 (code defect): on the parallel path of `symmetric` the diagonal
cells are never written — the wavefront holds only pairs `i < j` — so
every diagonal entry of the returned matrix is whatever value the freshly
allocated (uninitialised) symmetric storage happened to contain, not 0. -/
theorem symmetric_parallel_diag_unwritten (cfg : Config) (items : List String)
    (jC : Nat → Nat) (jS : Nat → Nat → ℚ) (i : Nat)
    (hne : ¬items = []) (hs : ∀ s ∈ items, ¬s = "") (hhw : cfg.hw > 1) :
    symOf (symmetric cfg items false jC jS) i i = jS i i := by
  obtain ⟨fin, hfin, hrun, hval, hout⟩ :=
    symmetricS_par cfg initState items jC jS hne hs hhw
  unfold symmetric
  rw [hrun]
  show symRead fin.sto i i = jS i i
  unfold symRead
  rw [min_self, max_self]
  refine hout i i (fun hmem => ?_)
  have := laneSeq_bounds items.length cfg.hw (i, i) hmem
  omega

/-- Witness for C3: two items, two execution units, storage junk 7. -/
theorem symmetric_parallel_diag_unwritten_witness :
    (¬(["ab", "c"] : List String) = []) ∧ cfgLen2.hw > 1 ∧
    symOf (symmetric cfgLen2 ["ab", "c"] false jz jq7) 0 0 = jq7 0 0 ∧
    jq7 0 0 = 7 ∧ ¬(jq7 0 0 = 0) := by
  refine ⟨by simp, by decide, ?_, rfl, by norm_num [jq7]⟩
  exact symmetric_parallel_diag_unwritten cfgLen2 ["ab", "c"] jz jq7 0
    (by simp) (by intro s hs; fin_cases hs <;> simp) (by decide)

/-- C4 (code defect): on the same two-item input, the sequential fallback
writes 0 to the diagonal while the parallel wavefront path leaves the
diagonal at its uninitialised storage value (here 7): the two paths do
not produce identical matrices. -/
theorem symmetric_paths_not_identical :
    symOf (symmetric cfgLen1 ["ab", "c"] false jz jq7) 0 0 = 0 ∧
    symOf (symmetric cfgLen2 ["ab", "c"] false jz jq7) 0 0 = 7 ∧
    ¬(symOf (symmetric cfgLen1 ["ab", "c"] false jz jq7) 0 0 =
      symOf (symmetric cfgLen2 ["ab", "c"] false jz jq7) 0 0) := by
  have hs : ∀ s ∈ (["ab", "c"] : List String), ¬s = "" := by
    intro s hs
    fin_cases hs <;> simp
  have h2 : symOf (symmetric cfgLen2 ["ab", "c"] false jz jq7) 0 0 = 7 :=
    symmetric_parallel_diag_unwritten cfgLen2 ["ab", "c"] jz jq7 0
      (by simp) hs (by decide)
  have h1 : symOf (symmetric cfgLen1 ["ab", "c"] false jz jq7) 0 0 = 0 := by
    unfold symmetric
    rw [symmetricS_seq cfgLen1 initState ["ab", "c"] jz jq7 (by simp) hs
      (by decide)]
    show symRead _ 0 0 = 0
    unfold symRead
    norm_num
  refine ⟨h1, h2, ?_⟩
  rw [h1, h2]
  norm_num

/-- C2 counterexample: with a compressor backend for which the
concatenation compresses below both standalone sizes (`C "ab" = 1`,
`C "a" = C "b" = 5`), `unsymmetric` stores `(1 - 5)/5 = -4/5` at
cell (0, 1): the code clamps only from above, so the entry is
smaller than 0 and the claimed interval [0, 1] is violated. -/
theorem unsymmetric_entry_below_zero :
    matOf (unsymmetric cfgNeg ["a", "b"] false jz jq0) 0 1 = -4/5 ∧
    matOf (unsymmetric cfgNeg ["a", "b"] false jz jq0) 0 1 < 0 := by
  have hs : ∀ s ∈ (["a", "b"] : List String), ¬s = "" := by
    intro s hs
    fin_cases hs <;> simp
  have h : matOf (unsymmetric cfgNeg ["a", "b"] false jz jq0) 0 1 = -4/5 := by
    rw [unsymmetric_run cfgNeg ["a", "b"] jz jq0 (by simp) hs]
    show (if (0 : Nat) < 2 ∧ (1 : Nat) < 2 then
        (if (0 : Nat) = 1 then 0
          else uE cfgNeg (fun k => (["a", "b"] : List String).getD k "") 0 1)
      else jq0 0 1) = -4/5
    rw [if_pos (by omega), if_neg (by omega)]
    unfold uE sz cfgNeg
    norm_num [show ("a" ++ "b" : String) = "ab" from rfl,
      show ¬("a" : String) = "ab" by decide,
      show ¬("b" : String) = "ab" by decide]
  exact ⟨h, by rw [h]; norm_num⟩

/-- C2 amended: every matrix entry either batch path writes is clamped
from above by 1.  The written entries of `symmetric` (all cells on the
sequential path; all off-diagonal cells on the parallel path, whose
diagonal stays unwritten) are moreover at least 0 because the wrapped
`size_t` subtraction is non-negative.  The `unsymmetric` entries are at
least 0 only under the extra assumption that the compressor never
compresses a concatenation below the smaller standalone size — the code
enforces no lower clamp. -/
theorem batch_entry_bounds (cfg : Config) (items : List String)
    (jC : Nat → Nat) (jM jS : Nat → Nat → ℚ)
    (hne : ¬items = []) (hs : ∀ s ∈ items, ¬s = "") :
    (∀ a b, a < items.length → b < items.length →
      matOf (unsymmetric cfg items false jC jM) a b ≤ 1) ∧
    ((∀ s t : String, min (cfg.C s) (cfg.C t) ≤ cfg.C (s ++ t)) →
      ∀ a b, a < items.length → b < items.length →
        0 ≤ matOf (unsymmetric cfg items false jC jM) a b) ∧
    (¬cfg.hw > 1 → ∀ a b, a < items.length → b < items.length →
      0 ≤ symOf (symmetric cfg items false jC jS) a b ∧
      symOf (symmetric cfg items false jC jS) a b ≤ 1) ∧
    (cfg.hw > 1 → ∀ a b, a < items.length → b < items.length → ¬a = b →
      0 ≤ symOf (symmetric cfg items false jC jS) a b ∧
      symOf (symmetric cfg items false jC jS) a b ≤ 1) := by
  refine ⟨?_, ?_, ?_, ?_⟩
  · intro a b ha hb
    rw [unsymmetric_run cfg items jC jM hne hs]
    show (if a < items.length ∧ b < items.length then
        (if a = b then 0 else uE cfg (fun k => items.getD k "") a b)
      else jM a b) ≤ 1
    rw [if_pos ⟨ha, hb⟩]
    by_cases hab : a = b
    · rw [if_pos hab]
      norm_num
    · rw [if_neg hab]
      exact min_le_right _ _
  · intro hmono a b ha hb
    rw [unsymmetric_run cfg items jC jM hne hs]
    show (0 : ℚ) ≤ (if a < items.length ∧ b < items.length then
        (if a = b then 0 else uE cfg (fun k => items.getD k "") a b)
      else jM a b)
    rw [if_pos ⟨ha, hb⟩]
    by_cases hab : a = b
    · rw [if_pos hab]
    · rw [if_neg hab]
      refine le_min ?_ (by norm_num)
      refine div_nonneg ?_ (by positivity)
      rw [sub_nonneg]
      exact_mod_cast hmono _ _
  · intro hhw a b ha hb
    have hseq := symmetricS_seq cfg initState items jC jS hne hs hhw
    unfold symmetric
    simp only [hseq, symOf_ok, symRead]
    by_cases hab : a = b
    · subst hab
      rw [min_self, max_self, if_neg (by omega), if_pos ⟨rfl, ha⟩]
      norm_num
    · have hmm : min a b < max a b ∧ max a b < items.length := by
        constructor
        · rcases Nat.lt_or_ge a b with h | h
          · rw [min_eq_left (by omega), max_eq_right (by omega)]
            omega
          · rw [min_eq_right (by omega), max_eq_left (by omega)]
            omega
        · rcases Nat.lt_or_ge a b with h | h
          · rw [max_eq_right (by omega)]
            omega
          · rw [max_eq_left (by omega)]
            omega
      rw [if_pos hmm]
      constructor
      · refine le_min (by norm_num) ?_
        positivity
      · exact min_le_left _ _
  · intro hhw a b ha hb hab
    obtain ⟨fin, hfin, hrun, hval, hout⟩ :=
      symmetricS_par cfg initState items jC jS hne hs hhw
    unfold symmetric
    simp only [hrun, symOf_ok, symRead]
    have hmm : min a b < max a b ∧ max a b < items.length := by
      constructor
      · rcases Nat.lt_or_ge a b with h | h
        · rw [min_eq_left (by omega), max_eq_right (by omega)]
          omega
        · rw [min_eq_right (by omega), max_eq_left (by omega)]
          omega
      · rcases Nat.lt_or_ge a b with h | h
        · rw [max_eq_right (by omega)]
          omega
        · rw [max_eq_left (by omega)]
          omega
    have hmem : (min a b, max a b) ∈ laneSeq items.length cfg.hw := by
      rw [mem_laneSeq items.length cfg.hw _ (by omega)]
      exact (mem_wavefrontPairs items.length _ _).mpr hmm
    rw [hval (min a b, max a b) hmem]
    unfold pE
    constructor
    · refine le_min (by norm_num) ?_
      positivity
    · exact min_le_left _ _

/-- Witness for C2 (amended) on the batch `["ab", "c"]` with the
byte-length oracle, which satisfies the concatenation-monotonicity
assumption. -/
theorem batch_entry_bounds_witness :
    (¬(["ab", "c"] : List String) = []) ∧
    (∀ a b, a < 2 → b < 2 →
      matOf (unsymmetric cfgLen1 ["ab", "c"] false jz jq0) a b ≤ 1) ∧
    (∀ a b, a < 2 → b < 2 →
      0 ≤ matOf (unsymmetric cfgLen1 ["ab", "c"] false jz jq0) a b) ∧
    (∀ a b, a < 2 → b < 2 →
      0 ≤ symOf (symmetric cfgLen1 ["ab", "c"] false jz jq0) a b ∧
      symOf (symmetric cfgLen1 ["ab", "c"] false jz jq0) a b ≤ 1) := by
  have hs : ∀ s ∈ (["ab", "c"] : List String), ¬s = "" := by
    intro s hs
    fin_cases hs <;> simp
  have h := batch_entry_bounds cfgLen1 ["ab", "c"] jz jq0 jq0 (by simp) hs
  refine ⟨by simp, fun a b ha hb => h.1 a b (by simpa using ha) (by simpa using hb),
    fun a b ha hb => ?_, fun a b ha hb => ?_⟩
  · refine h.2.1 ?_ a b (by simpa using ha) (by simpa using hb)
    intro s t
    show min s.length t.length ≤ (s ++ t).length
    rw [String.length_append]
    omega
  · exact h.2.2.1 (by decide) a b (by simpa using ha) (by simpa using hb)

/-- C8 counterexample: a two-item compressed-size query whose second item
is the empty buffer does not fail — the emptiness check covers only the
first argument — contradicting the claim that the operation fails with
`InvalidInput` whenever any involved item resolves to an empty buffer. -/
theorem deflate_second_empty_no_failure :
    deflate cfgLen2 false "ab" "" = Except.ok 2 ∧
    ¬(deflate cfgLen2 false "ab" "" = Except.error Err.emptyString) := by
  refine ⟨rfl, ?_⟩
  intro h
  rw [show deflate cfgLen2 false "ab" "" = Except.ok 2 from rfl] at h
  exact Except.noConfusion h

/-- C8 amended: the compressed-size query throws the empty-input
parameter exception exactly when its first argument is the empty string
(the second argument and the resolved file contents are never checked for
emptiness), and it throws the file-open parameter exception exactly when
file mode is on, the first argument is non-empty, and either the first
path cannot be opened or the first opens while the second argument is a
non-empty path that cannot be opened. -/
theorem deflate_error_charac (cfg : Config) (isfile : Bool) (s1 s2 : String) :
    (deflate cfg isfile s1 s2 = Except.error Err.emptyString ↔ s1 = "") ∧
    (deflate cfg isfile s1 s2 = Except.error Err.fileNotOpen ↔
      (¬s1 = "" ∧ isfile = true ∧
        (cfg.fs s1 = none ∨
          (¬cfg.fs s1 = none ∧ ¬s2 = "" ∧ cfg.fs s2 = none)))) := by
  by_cases h1 : s1 = ""
  · simp [deflate, h1]
  · cases hf : isfile
    · simp [deflate, h1, hf]
    · rcases hfs1 : cfg.fs s1 with _ | c1
      · simp [deflate, h1, hf, hfs1]
      · by_cases h2 : s2 = ""
        · simp [deflate, h1, hf, hfs1, h2]
        · rcases hfs2 : cfg.fs s2 with _ | c2
          · simp [deflate, h1, hf, hfs1, h2, hfs2]
          · simp [deflate, h1, hf, hfs1, h2, hfs2]

/-- C9 counterexample: after a successful `symmetric` call the engine
still holds the batch's item snapshot in `m_sources` — the per-call state
is overwritten on the next call, not discarded when the call returns. -/
theorem symmetric_state_survives :
    (symmetricS cfgLen1 initState ["ab", "c"] false jz jq0).2.msources =
      ["ab", "c"] ∧
    initState.msources = [] := by
  refine ⟨?_, rfl⟩
  exact (symmetricS_snd cfgLen1 initState ["ab", "c"] false jz jq0
    (by simp)).1

/-- C9 amended: per-call state is freshly (re)initialised at the start of
every batch call, so the returned result is independent of whatever the
engine fields held before the call; but the state is engine-held, not
call-scoped: after `symmetric` the fields still hold the item snapshot
and mode flag, and `unsymmetric` (whose cache and matrix are call-local)
still leaves the mode flag `m_isfile` behind in the engine. -/
theorem batch_state_fresh_not_discarded (cfg : Config) (st st' : EngineState)
    (items : List String) (isfile : Bool) (jC : Nat → Nat)
    (jM jS : Nat → Nat → ℚ) (hne : ¬items = []) :
    (symmetricS cfg st items isfile jC jS).1 =
      (symmetricS cfg st' items isfile jC jS).1 ∧
    (symmetricS cfg st items isfile jC jS).2.msources = items ∧
    (symmetricS cfg st items isfile jC jS).2.misfile = isfile ∧
    (unsymmetricS cfg st items isfile jC jM).1 =
      (unsymmetricS cfg st' items isfile jC jM).1 ∧
    (unsymmetricS cfg st items isfile jC jM).2 =
      ⟨st.msymmetric, st.munsymmetric, st.mwavefront, st.mcache,
        st.msources, isfile⟩ := by
  refine ⟨?_, (symmetricS_snd cfg st items isfile jC jS hne).1,
    (symmetricS_snd cfg st items isfile jC jS hne).2, ?_,
    unsymmetricS_snd cfg st items isfile jC jM hne⟩
  · rw [symmetricS_fst cfg st items isfile jC jS,
      symmetricS_fst cfg st' items isfile jC jS]
  · rw [unsymmetricS_fst cfg st items isfile jC jM,
      unsymmetricS_fst cfg st' items isfile jC jM]

/-- Witness for C9 (amended) at a concrete engine state and batch. -/
theorem batch_state_fresh_not_discarded_witness :
    (¬(["ab", "c"] : List String) = []) ∧
    (symmetricS cfgLen1 initState ["ab", "c"] false jz jq0).1 =
      (symmetricS cfgLen1 initState ["ab", "c"] false jz jq0).1 ∧
    (symmetricS cfgLen1 initState ["ab", "c"] false jz jq0).2.msources =
      ["ab", "c"] ∧
    (symmetricS cfgLen1 initState ["ab", "c"] false jz jq0).2.misfile = false ∧
    (unsymmetricS cfgLen1 initState ["ab", "c"] false jz jq0).1 =
      (unsymmetricS cfgLen1 initState ["ab", "c"] false jz jq0).1 ∧
    (unsymmetricS cfgLen1 initState ["ab", "c"] false jz jq0).2 =
      ⟨initState.msymmetric, initState.munsymmetric, initState.mwavefront,
        initState.mcache, initState.msources, false⟩ := by
  have h := batch_state_fresh_not_discarded cfgLen1 initState initState
    ["ab", "c"] false jz jq0 jq0 (by simp)
  exact ⟨by simp, h.1, h.2.1, h.2.2.1, h.2.2.2.1, h.2.2.2.2⟩

end NCD
